import Mathlib

/-! # Hangman (`hangman.cpp`): a shallow embedding and its properties

Conventions of the embedding.

* A C++ `char` is modelled by its integer value after integral promotion
  (`Int`), a `std::string` by the list of its characters (`List Int`).
  Comparisons such as `currentVal == guessVal - 32` are carried out in `int`
  in the source, hence without wrap-around; they are plain `Int` comparisons
  here.  Where the range of `char` matters it is the hypothesis `isChar`
  (signed 8-bit, the x86 ABI; ASCII text has the same values when `char` is
  unsigned).
* `unsigned int` counters are natural numbers reduced modulo `2 ^ 32`.
* A `for` loop over the characters of a string is a structural recursion over
  the list of the characters still to visit; loop-carried variables are
  arguments.  Strings are shorter than `2 ^ 32` characters, so that the
  `unsigned int` index of such a loop does not wrap.
* `Phrase phraseArray[]` is a pointer to consecutive `Phrase` objects: a
  function from the index to the object stored there.
* An `int` is an `Int`; the quotient and remainder of two `int`s truncate
  towards zero (`Int.tdiv`, `Int.tmod`).  The successive values of `rand()`,
  which are not negative, are a function `rand : Nat → Nat` of the number of
  the call.  A function that may divide by zero returns an `Option`.
-/

namespace Hangman

/-! ## Characters and strings -/

/-- The characters of a string literal as C++ `char` values. -/
def str (s : String) : List Int :=
  s.toList.map (fun c => (c.toNat : Int))

/-- Range of a (signed, 8-bit) `char`. -/
def isChar (x : Int) : Prop := -128 ≤ x ∧ x ≤ 127

instance (x : Int) : Decidable (isChar x) := by
  unfold isChar; exact inferInstance

/-- A letter `A`-`Z` or `a`-`z`. -/
def isLetter (x : Int) : Prop := (65 ≤ x ∧ x ≤ 90) ∨ (97 ≤ x ∧ x ≤ 122)

instance (x : Int) : Decidable (isLetter x) := by
  unfold isLetter; exact inferInstance

/-- A lowercase letter `a`-`z`. -/
def isLower (x : Int) : Prop := 97 ≤ x ∧ x ≤ 122

instance (x : Int) : Decidable (isLower x) := by
  unfold isLower; exact inferInstance

/-- Source function `char toLower(char uGuess)` (lines 812-818). -/
def toLower (uGuess : Int) : Int :=
  if uGuess ≥ 65 ∧ uGuess ≤ 90 then uGuess + 32 else uGuess

/-! ## Difficulty scorer: `maybeUnique`, `uniqueLetterCount` -/

/-- The `for` loop of `maybeUnique` (lines 368-373): `return false` at the
first index where `ch == UNIQ_CHARS[index]`; falling out of the loop reaches
the final `return true`. -/
def maybeUniqueLoop (ch : Int) : List Int → Bool
  | [] => true
  | u :: rest => if ch = u then false else maybeUniqueLoop ch rest

/-- Source function `bool maybeUnique(const string UNIQ_CHARS, char& ch)` (lines 354-378).
The call `toLower(ch);` passes `ch` by value and drops the result, so `ch`
keeps its value; the function never assigns through the reference. -/
def maybeUnique (UNIQ_CHARS : List Int) (ch : Int) : Bool :=
  let _dropped := toLower ch
  if ch ≤ 97 ∨ ch ≥ 122 then false
  else maybeUniqueLoop ch UNIQ_CHARS

/-- Inner loop of `uniqueLetterCount` (lines 394-402): `uniq` is set to
`false` whenever `ch == holdChar[iter]`. -/
def uniqInner (ch : Int) : List Int → Bool → Bool
  | [], uniq => uniq
  | h :: rest, uniq => uniqInner ch rest (if ch = h then false else uniq)

/-- Outer loop of `uniqueLetterCount` (lines 388-412); the second argument is
`holdChar`.  `uniq` is `true` on entry of every iteration (initialised at
line 385, reset at line 410). -/
def uniqOuter : List Int → List Int → List Int
  | [], holdChar => holdChar
  | ch :: rest, holdChar =>
    let uniq := uniqInner ch holdChar true
    uniqOuter rest (if uniq && maybeUnique holdChar ch then holdChar ++ [ch] else holdChar)

/-- Source function `int uniqueLetterCount(const string SINGLE_PHRASE)` (lines 381-418):
`holdChar` starts as `" "`, the leading space is erased at the end and the
length returned. -/
def uniqueLetterCount (SINGLE_PHRASE : List Int) : Nat :=
  ((uniqOuter SINGLE_PHRASE (str " ")).drop 1).length

/-- The required-guess score in the words of the specification: the size of
the set `{ lower(c) | c in phrase, c in A-Z or a-z }`. -/
def distinctLetterCount (phrase : List Int) : Nat :=
  ((phrase.filter (fun c => decide (isLetter c))).map toLower).dedup.length

/-! ## Phrase sorter: `sortPhrases`, `swapPhrases` -/

/-- Source type `struct Phrase` (lines 26-31). -/
structure Phrase where
  text : List Int
  guessesRequired : Nat
  isUsed : Bool
deriving DecidableEq

/-- Source function `void swapPhrases(const int INDEX, const int SMALL_INDEX, Phrase phraseArray[])`
(lines 465-475): three assignments through `holdGuess`. -/
def swapPhrases (INDEX SMALL_INDEX : Nat) (phraseArray : Nat → Phrase) : Nat → Phrase :=
  let holdGuess := phraseArray INDEX
  let phraseArray1 := Function.update phraseArray INDEX (phraseArray SMALL_INDEX)
  Function.update phraseArray1 SMALL_INDEX holdGuess

/-- Inner loop of `sortPhrases` (lines 454-457),
`for (iter = index + 1; iter < PHRASE_NUM; iter++)`: the first argument counts
the iterations still to run (`PHRASE_NUM - iter`), then come `iter` and
`smallestIndex`; the result is the final `smallestIndex`. -/
def sortInner (phraseArray : Nat → Phrase) : Nat → Nat → Nat → Nat
  | 0, _, smallestIndex => smallestIndex
  | k + 1, iter, smallestIndex =>
    sortInner phraseArray k (iter + 1)
      (if (phraseArray iter).guessesRequired < (phraseArray smallestIndex).guessesRequired
        then iter else smallestIndex)

/-- Outer loop of `sortPhrases` (lines 449-461),
`for (int index = 0; index < PHRASE_NUM; index++)`: the second argument counts
the iterations still to run (`PHRASE_NUM - index`), the third is `index`. -/
def sortOuter (PHRASE_NUM : Nat) : Nat → Nat → (Nat → Phrase) → (Nat → Phrase)
  | 0, _, phraseArray => phraseArray
  | k + 1, index, phraseArray =>
    let smallestIndex := sortInner phraseArray (PHRASE_NUM - (index + 1)) (index + 1) index
    sortOuter PHRASE_NUM k (index + 1) (swapPhrases index smallestIndex phraseArray)

/-- Source function `void sortPhrases(Phrase phraseArray[], const int PHRASE_NUM)` (lines
444-462).  `PHRASE_NUM` is an `int`; the loop body runs for
`index = 0, ..., PHRASE_NUM - 1`, not at all when `PHRASE_NUM <= 0`. -/
def sortPhrases (phraseArray : Nat → Phrase) (PHRASE_NUM : Int) : Nat → Phrase :=
  sortOuter PHRASE_NUM.toNat PHRASE_NUM.toNat 0 phraseArray

/-! ## Masking: `phraseWithBlanks`, `withGuesses`, `withoutGuesses` -/

/-- Source function `char withGuesses(char currentVal, char guessVal)` (lines 526-555);
`'_'` is 95. -/
def withGuesses (currentVal guessVal : Int) : Int :=
  if currentVal = guessVal ∨ currentVal = guessVal - 32 ∨ currentVal = guessVal + 32 then
    currentVal
  else if (currentVal ≥ 32 ∧ currentVal ≤ 64) ∨ (currentVal ≥ 91 ∧ currentVal ≤ 96) then
    currentVal
  else
    95

/-- Source function `char withoutGuesses(char currentVal)` (lines 558-574). -/
def withoutGuesses (currentVal : Int) : Int :=
  if (currentVal ≥ 32 ∧ currentVal ≤ 64) ∨ (currentVal ≥ 91 ∧ currentVal ≤ 96) then
    currentVal
  else
    95

/-- Inner loop of `phraseWithBlanks` (lines 500-507) for the phrase character
`cur`; the second argument is `buildPhrase` as it stands, the list holds the
guesses still to try.  The loop breaks as soon as `buildPhrase != '_'`. -/
def blanksInner (cur : Int) : Int → List Int → Int
  | buildPhrase, [] => buildPhrase
  | _, g :: rest =>
    if withGuesses cur g ≠ 95 then withGuesses cur g
    else blanksInner cur (withGuesses cur g) rest

/-- Outer loop of `phraseWithBlanks` (lines 495-520).  Arguments: `noLength`,
the phrase characters still to render, `buildPhrase`, `holdPhrase`.  The
separator is appended when `index + 1 != CURRENT_PHRASE.length()`, that is
when a character is still to come. -/
def blanksOuter (CORRECT_GUESSES : List Int) (noLength : Bool) :
    List Int → Int → List Int → List Int
  | [], _, holdPhrase => holdPhrase
  | cur :: rest, buildPhrase, holdPhrase =>
    let buildPhrase1 :=
      if !noLength then blanksInner cur buildPhrase CORRECT_GUESSES
      else withoutGuesses cur
    let holdPhrase1 := holdPhrase ++ [buildPhrase1]
    let holdPhrase2 := if rest.length ≠ 0 then holdPhrase1 ++ [32] else holdPhrase1
    blanksOuter CORRECT_GUESSES noLength rest buildPhrase1 holdPhrase2

/-- Source function `string phraseWithBlanks(const string CURRENT_PHRASE, const string CORRECT_GUESSES)`
(lines 478-523).  `buildPhrase` is declared without a value and is assigned in
every iteration before it is appended (the inner loop runs at least once when
`CORRECT_GUESSES` is not empty); its initial content is taken as 0. -/
def phraseWithBlanks (CURRENT_PHRASE CORRECT_GUESSES : List Int) : List Int :=
  let noLength : Bool := if CORRECT_GUESSES.length = 0 then true else false
  blanksOuter CORRECT_GUESSES noLength CURRENT_PHRASE 0 []

/-- Source function `bool checkVictory(string guessedPhrase)` (lines 820-825). -/
def checkVictory : List Int → Bool
  | [] => true
  | c :: rest => if c = 95 then false else checkVictory rest

/-! ## Guess classification: `checkGuess` -/

/-- Source type `struct Guesses` (lines 37-41); `numOfGuesses` is an `unsigned int`. -/
structure Guesses where
  numOfGuesses : Nat
  charGuesses : List Int
deriving DecidableEq

/-- The array `Guesses guess[3]` of `runGame`: index 0 holds the correct
guesses, index 1 the wrong ones, index 2 all of them (line 691). -/
structure GuessArray where
  correct : Guesses
  wrong : Guesses
  all : Guesses
deriving DecidableEq

/-- The initialisation loop of `runGame` (lines 692-697). -/
def emptyGuesses : GuessArray :=
  { correct := ⟨0, []⟩, wrong := ⟨0, []⟩, all := ⟨0, []⟩ }

/-- The pair `g.charGuesses += USER_GUESS; g.numOfGuesses++;`. -/
def addGuess (g : Guesses) (USER_GUESS : Int) : Guesses :=
  { numOfGuesses := (g.numOfGuesses + 1) % 2 ^ 32,
    charGuesses := g.charGuesses ++ [USER_GUESS] }

/-- The branch "Good guess!" of `checkGuess` (lines 795-798). -/
def recordCorrect (USER_GUESS : Int) (guess : GuessArray) : GuessArray :=
  { guess with all := addGuess guess.all USER_GUESS,
               correct := addGuess guess.correct USER_GUESS }

/-- The branch "Sorry, bad guess." of `checkGuess` (lines 804-807). -/
def recordWrong (USER_GUESS : Int) (guess : GuessArray) : GuessArray :=
  { guess with all := addGuess guess.all USER_GUESS,
               wrong := addGuess guess.wrong USER_GUESS }

/-- The loop over `guess[2].charGuesses` in `checkGuess` (lines 774-782):
`true` when the function returns from inside it. -/
def alreadyGuessed (USER_GUESS : Int) : List Int → Bool
  | [] => false
  | g :: rest =>
    if USER_GUESS = g ∨ USER_GUESS = g + 32 ∨ USER_GUESS = g - 32 then true
    else alreadyGuessed USER_GUESS rest

/-- The loop over the phrase in `checkGuess` (lines 789-809).  The test
`index == SINGLE_PHRASE.length() - 1` holds exactly when no character is left
after the current one; that branch does not return, the loop then ends. -/
def scanPhrase (USER_GUESS : Int) : List Int → GuessArray → GuessArray
  | [], guess => guess
  | p :: rest, guess =>
    if USER_GUESS = p ∨ USER_GUESS = p + 32 ∨ USER_GUESS = p - 32 then
      recordCorrect USER_GUESS guess
    else if rest.length = 0 then
      scanPhrase USER_GUESS rest (recordWrong USER_GUESS guess)
    else
      scanPhrase USER_GUESS rest guess

/-- Source function `void checkGuess(const char USER_GUESS, const string SINGLE_PHRASE, Guesses guess[])`
(lines 761-810); the result is the content of `guess` on return. -/
def checkGuess (USER_GUESS : Int) (SINGLE_PHRASE : List Int) (guess : GuessArray) :
    GuessArray :=
  if (USER_GUESS ≥ 32 ∧ USER_GUESS ≤ 64) ∨ (USER_GUESS ≥ 91 ∧ USER_GUESS ≤ 96) then
    guess
  else if alreadyGuessed USER_GUESS guess.all.charGuesses then
    guess
  else
    scanPhrase USER_GUESS SINGLE_PHRASE guess

/-- The guess array after a sequence of `checkGuess` calls on one phrase. -/
def applyGuesses (SINGLE_PHRASE : List Int) (inputs : List Int) (guess : GuessArray) :
    GuessArray :=
  inputs.foldl (fun g c => checkGuess c SINGLE_PHRASE g) guess

/-! ## Game session: `runGame`, `displayResult` -/

/-- The condition of the `do ... while` of `runGame` (line 733). -/
def loopCondition (text : List Int) (guess : GuessArray) : Bool :=
  !checkVictory (phraseWithBlanks text guess.correct.charGuesses) &&
    decide (guess.wrong.numOfGuesses < 5)

/-- The `do ... while` loop of `runGame` (lines 705-733) on the characters
read from the console: each is lowercased and passed to `checkGuess`, then the
condition is tested.  `some guess` is the array with which the loop stops,
`none` says that the loop is still waiting for input after these characters. -/
def runGameLoop (text : List Int) : List Int → GuessArray → Option GuessArray
  | [], _ => none
  | currentGuess :: rest, guess =>
    let guess1 := checkGuess (toLower currentGuess) text guess
    if loopCondition text guess1 then runGameLoop text rest guess1 else some guess1

/-- The successive contents of `guess` during the loop of `runGame`: the
content on entry, then the content after each iteration that is run. -/
def runGameStates (text : List Int) : List Int → GuessArray → List GuessArray
  | [], guess => [guess]
  | currentGuess :: rest, guess =>
    let guess1 := checkGuess (toLower currentGuess) text guess
    guess :: (if loopCondition text guess1 then runGameStates text rest guess1 else [guess1])

/-- What `displayResult` announces. -/
inductive Verdict where
  | youreDead
  | youWin
deriving DecidableEq

/-- The choice made by `displayResult` (lines 750-757). -/
def displayResult (wrongGuesses : Nat) : Verdict :=
  if wrongGuesses = 5 then Verdict.youreDead else Verdict.youWin

/-! ## Phrase selection: `randomPhraseIndex` -/

/-- The `switch` of `randomPhraseIndex` (lines 662-677) for the value `r`
returned by `rand()`: the content of `randi` after it, `none` when the modulus
is zero (division by zero).  The quotient and the remainder of two `int`s
truncate towards zero.  In the `default` case `randi` keeps its value. -/
def drawIndex (diff phraseNum leftover : Int) (r : Nat) (randi : Int) : Option Int :=
  if diff = 0 then
    if phraseNum.tdiv 3 = 0 then none
    else some ((r : Int).tmod (phraseNum.tdiv 3))
  else if diff = 1 then
    if phraseNum.tdiv 3 = 0 then none
    else some ((r : Int).tmod (phraseNum.tdiv 3) + phraseNum.tdiv 3)
  else if diff = 2 then
    if phraseNum.tdiv 3 + leftover = 0 then none
    else some ((r : Int).tmod (phraseNum.tdiv 3 + leftover) + phraseNum.tdiv 3 * 2)
  else some randi

/-- The `do ... while` loop of `randomPhraseIndex` (lines 660-679).  `rand k`
is the value of the call of `rand()` made when `counter` is `k`; the first
argument bounds the number of iterations (the loop leaves as soon as `counter`
reaches 100, so that 100 is enough), then come `randi` and `counter`.  The
result is the final `randi` and `counter`; `none` stands for a division by
zero or a read before the start of the array. -/
def randomLoop (diff phraseNum leftover : Int) (PHRASE_ARRAY : Nat → Phrase)
    (rand : Nat → Nat) : Nat → Int → Nat → Option (Int × Nat)
  | 0, _, _ => none
  | fuel + 1, randi, counter =>
    match drawIndex diff phraseNum leftover (rand counter) randi with
    | none => none
    | some randi1 =>
      if randi1 < 0 then none
      else if (PHRASE_ARRAY randi1.toNat).isUsed && decide (counter + 1 < 100) then
        randomLoop diff phraseNum leftover PHRASE_ARRAY rand fuel randi1 (counter + 1)
      else some (randi1, counter + 1)

/-- Source function `int randomPhraseIndex(int diff, const Phrase PHRASE_ARRAY[], int phraseNum)`
(lines 648-686) with the values of `rand()` as an argument.  The result is the
returned index together with the flag "Every phrase has been used." (the test
`counter == 100`). -/
def randomPhraseIndex (diff : Int) (PHRASE_ARRAY : Nat → Phrase) (phraseNum : Int)
    (rand : Nat → Nat) : Option (Int × Bool) :=
  let leftover := phraseNum.tmod 3
  match randomLoop diff phraseNum leftover PHRASE_ARRAY rand 100 (-1) 0 with
  | none => none
  | some (randi, counter) => some (randi, decide (counter = 100))

/-! ## Auxiliary definitions for the statements and proofs -/

/-- Invariant of the outer loop of `sortPhrases`: every entry before `index`
is at most every later entry below `n`. -/
def sortedUpTo (n index : Nat) (arr : Nat → Phrase) : Prop :=
  ∀ i j, i < j → j < n → i < index → (arr i).guessesRequired ≤ (arr j).guessesRequired

/-- A three-entry array with scores 3, 1, 2 (every further entry has score 0). -/
def sampleArray : Nat → Phrase := fun k =>
  if k = 0 then ⟨str "bcd", 3, false⟩
  else if k = 1 then ⟨str "b", 1, false⟩
  else if k = 2 then ⟨str "bc", 2, false⟩
  else ⟨str "A", 0, false⟩

/-- The character `phraseWithBlanks` renders for the phrase character `cur`:
the value of `buildPhrase` appended in its iteration. -/
def renderChar (CORRECT_GUESSES : List Int) (cur : Int) : Int :=
  if CORRECT_GUESSES.length ≠ 0 then blanksInner cur 0 CORRECT_GUESSES
  else withoutGuesses cur

/-- The range test shared by `withGuesses`, `withoutGuesses` and `checkGuess`:
the characters from the space to `@` and from `[` to the backquote. -/
def inShownRange (x : Int) : Prop := (x ≥ 32 ∧ x ≤ 64) ∨ (x ≥ 91 ∧ x ≤ 96)

instance (x : Int) : Decidable (inShownRange x) := by
  unfold inShownRange; exact inferInstance

/-- The comparison of `withGuesses`: the phrase character equals the guess, or
the guess shifted by 32 in either direction. -/
def matchesGuess (cur g : Int) : Prop := cur = g ∨ cur = g - 32 ∨ cur = g + 32

instance (cur g : Int) : Decidable (matchesGuess cur g) := by
  unfold matchesGuess; exact inferInstance

/-- The comparison of `checkGuess`: the guess equals the stored character, or
the stored character shifted by 32 in either direction. -/
def sameLetter (u x : Int) : Prop := u = x ∨ u = x + 32 ∨ u = x - 32

instance (u x : Int) : Decidable (sameLetter u x) := by
  unfold sameLetter; exact inferInstance

/-- The invariant of the guess array. -/
structure GuessInv (st : GuessArray) : Prop where
  nodup : st.all.charGuesses.Nodup
  chars : ∀ x ∈ st.all.charGuesses, isChar x
  split : ∀ x ∈ st.all.charGuesses, x ∈ st.correct.charGuesses ∨ x ∈ st.wrong.charGuesses
  correct_sub : ∀ x ∈ st.correct.charGuesses, x ∈ st.all.charGuesses
  wrong_sub : ∀ x ∈ st.wrong.charGuesses, x ∈ st.all.charGuesses
  disjoint : ∀ x ∈ st.correct.charGuesses, x ∉ st.wrong.charGuesses
  length_all : st.all.charGuesses.length =
    st.correct.charGuesses.length + st.wrong.charGuesses.length
  num_correct : st.correct.numOfGuesses = st.correct.charGuesses.length
  num_wrong : st.wrong.numOfGuesses = st.wrong.charGuesses.length
  num_all : st.all.numOfGuesses = st.all.charGuesses.length

/-- The test `checkVictory(phraseWithBlanks(singlePhrase.text, guess[0].charGuesses))`
of `runGame` (line 733). -/
def revealed (text : List Int) (guess : GuessArray) : Bool :=
  checkVictory (phraseWithBlanks text guess.correct.charGuesses)

/-- What holds of the guess array whenever an iteration of the loop of
`runGame` starts. -/
def loopEntry (text : List Int) (guess : GuessArray) : Prop :=
  guess.wrong.numOfGuesses < 5 ∧
    guess.wrong.charGuesses.length = guess.wrong.numOfGuesses ∧
    (guess.wrong.numOfGuesses = 4 → revealed text guess = false)

/-- The characters that pass the range test of `maybeUnique`: those strictly
between `a` (97) and `z` (122). -/
def countedChar (x : Int) : Prop := 97 < x ∧ x < 122

instance (x : Int) : Decidable (countedChar x) := by
  unfold countedChar; exact inferInstance

/-- The modulus of the draw of `randomPhraseIndex` for the tier `diff`: the
width of its band. -/
def bandWidth (diff phraseNum : Int) : Int :=
  if diff = 2 then phraseNum.tdiv 3 + phraseNum.tmod 3 else phraseNum.tdiv 3

/-- The index drawn by `randomPhraseIndex` in the iteration where `counter` is
`k` (for a tier 0, 1 or 2 and a modulus that is not zero). -/
def drawnAt (diff phraseNum : Int) (rand : Nat → Nat) (k : Nat) : Int :=
  (drawIndex diff phraseNum (phraseNum.tmod 3) (rand k) (-1)).getD (-1)

/-- The indices that a draw of `randomPhraseIndex` can produce for the tier
`diff` when `rand()` ranges over `0, ..., RAND_MAX`. -/
def drawnIndices (diff phraseNum : Int) (RAND_MAX : Nat) : Finset Int :=
  (Finset.range (RAND_MAX + 1)).biUnion
    (fun r => (drawIndex diff phraseNum (phraseNum.tmod 3) r (-1)).toFinset)

/-- Six phrases, the first of them used. -/
def sampleUsed : Nat → Phrase := fun k =>
  if k = 0 then ⟨str "b", 1, true⟩ else ⟨str "bc", 2, false⟩

/-- A random source that returns 0 ninety-nine times, then 1. -/
def sampleRand : Nat → Nat := fun k => if k < 99 then 0 else 1

/-- Stability in the words of the specification: any two of the first `n`
phrases of `before` with equal `guessesRequired` appear in `after` in the same
relative order. -/
def keepsOrderOfEquals (before after : Nat → Phrase) (n : Nat) : Prop :=
  ∀ j, j < n → ∀ i, i < j →
    (before i).guessesRequired = (before j).guessesRequired →
      ∃ j2, j2 < n ∧ ∃ i2, i2 < j2 ∧ after i2 = before i ∧ after j2 = before j

instance (before after : Nat → Phrase) (n : Nat) :
    Decidable (keepsOrderOfEquals before after n) := by
  unfold keepsOrderOfEquals; exact inferInstance

/-- Three phrases with the scores 2, 2, 1 (every further entry is the filler
of `loadPhrasesFromFile`). -/
def tieArray : Nat → Phrase := fun k =>
  if k = 0 then ⟨str "bc", 2, false⟩
  else if k = 1 then ⟨str "bd", 2, false⟩
  else if k = 2 then ⟨str "b", 1, false⟩
  else ⟨str "A", 0, false⟩

/-- Three phrases with the scores 1, 1, 2, already in ascending order. -/
def sortedTieArray : Nat → Phrase := fun k =>
  if k = 0 then ⟨str "b", 1, false⟩
  else if k = 1 then ⟨str "c", 1, false⟩
  else if k = 2 then ⟨str "bc", 2, false⟩
  else ⟨str "A", 0, false⟩

/-! # Theorems -/

/-! ## Properties of the difficulty scorer -/

theorem maybeUniqueLoop_eq (ch : Int) (l : List Int) :
    maybeUniqueLoop ch l = decide (ch ∉ l) := by
  induction l with
  | nil => simp [maybeUniqueLoop]
  | cons u rest ih =>
    simp only [maybeUniqueLoop, List.mem_cons, not_or]
    by_cases h : ch = u
    · simp [h]
    · simp [h, ih]

theorem uniqInner_eq (ch : Int) :
    ∀ (l : List Int) (b : Bool), uniqInner ch l b = (b && decide (ch ∉ l)) := by
  intro l
  induction l with
  | nil => intro b; simp [uniqInner]
  | cons u rest ih =>
    intro b
    simp only [uniqInner, List.mem_cons, not_or]
    rw [ih]
    by_cases h : ch = u
    · simp [h]
    · simp [h]

theorem uniqOuter_cons (ch : Int) (rest hold : List Int) :
    uniqOuter (ch :: rest) hold =
      uniqOuter rest (if countedChar ch ∧ ch ∉ hold then hold ++ [ch] else hold) := by
  simp only [uniqOuter, uniqInner_eq, maybeUnique, maybeUniqueLoop_eq]
  congr 1
  unfold countedChar
  by_cases h1 : ch ∉ hold
  · by_cases h2 : ch ≤ 97 ∨ ch ≥ 122
    · rw [if_neg (by simp [h2]), if_neg (by omega)]
    · rw [if_pos (by simp [h2, h1]), if_pos ⟨by omega, h1⟩]
  · rw [if_neg (by simp [h1]), if_neg (fun h => h1 h.2)]

theorem uniqOuter_length :
    ∀ (p hold : List Int), hold.Nodup →
      (uniqOuter p hold).length =
        hold.length + ((p.filter (fun c => decide (countedChar c))).toFinset \ hold.toFinset).card := by
  intro p
  induction p with
  | nil => intro hold _; simp [uniqOuter]
  | cons ch rest ih =>
    intro hold hnd
    rw [uniqOuter_cons]
    by_cases h : countedChar ch ∧ ch ∉ hold
    · rw [if_pos h]
      have hnd2 : (hold ++ [ch]).Nodup := by
        rw [List.nodup_append]
        refine ⟨hnd, List.nodup_singleton ch, ?_⟩
        intro x hx hx2
        rw [List.mem_singleton] at hx2
        subst hx2
        exact h.2 hx
      rw [ih _ hnd2]
      rw [List.filter_cons_of_pos (by simpa using h.1)]
      simp only [List.length_append, List.length_singleton, List.toFinset_append,
        List.toFinset_cons, List.toFinset_nil, insert_emptyc_eq]
      have hnot : ch ∉ hold.toFinset := by simpa using h.2
      have hsplit : insert ch (List.filter (fun c => decide (countedChar c)) rest).toFinset \ hold.toFinset
          = insert ch ((List.filter (fun c => decide (countedChar c)) rest).toFinset \ (hold.toFinset ∪ {ch})) := by
        ext x
        simp only [Finset.mem_sdiff, Finset.mem_insert, Finset.mem_union, Finset.mem_singleton]
        constructor
        · rintro ⟨h1 | h1, h2⟩
          · exact Or.inl h1
          · by_cases hx : x = ch
            · exact Or.inl hx
            · exact Or.inr ⟨h1, by tauto⟩
        · rintro (h1 | ⟨h1, h2⟩)
          · subst h1; exact ⟨Or.inl rfl, hnot⟩
          · exact ⟨Or.inr h1, by tauto⟩
      rw [hsplit, Finset.card_insert_of_not_mem (by simp)]
      omega
    · rw [if_neg h, ih _ hnd]
      congr 2
      by_cases hc : countedChar ch
      · have hmem : ch ∈ hold := by
          by_contra hn
          exact h ⟨hc, hn⟩
        rw [List.filter_cons_of_pos (by simpa using hc)]
        ext x
        simp only [Finset.mem_sdiff, List.toFinset_cons, Finset.mem_insert, List.mem_toFinset]
        constructor
        · rintro ⟨h1, h2⟩; exact ⟨Or.inr h1, h2⟩
        · rintro ⟨h1 | h1, h2⟩
          · subst h1; exact absurd hmem h2
          · exact ⟨h1, h2⟩
      · rw [List.filter_cons_of_neg (by simpa using hc)]

/-- What `uniqueLetterCount` computes: the number of distinct characters of the
phrase that lie strictly between `a` and `z`. -/
theorem uniqueLetterCount_eq (p : List Int) :
    uniqueLetterCount p = ((p.filter (fun c => decide (countedChar c))).dedup).length := by
  unfold uniqueLetterCount
  have hs : str " " = [32] := by decide
  rw [hs, List.length_drop, uniqOuter_length p [32] (List.nodup_singleton _)]
  have : (p.filter (fun c => decide (countedChar c))).toFinset \ ([32] : List Int).toFinset
      = (p.filter (fun c => decide (countedChar c))).toFinset := by
    ext x
    simp only [Finset.mem_sdiff, List.mem_toFinset, List.mem_filter, decide_eq_true_eq,
      List.mem_singleton, and_iff_left_iff_imp]
    rintro ⟨_, hx⟩
    unfold countedChar at hx
    omega
  rw [this, List.card_toFinset]
  simp
/-- C1: on the phrase "Hello, World!" `uniqueLetterCount` returns 5, while the
number of distinct letters, ignoring case and non-alphabetic characters, is 7;
`maybeUnique` drops the result of `toLower` and excludes `a` and `z`, so `H`
and `W` are not counted. -/
theorem uniqueLetterCount_hello_world :
    uniqueLetterCount (str "Hello, World!") = 5 ∧
      distinctLetterCount (str "Hello, World!") = 7 := by
  decide

/-! ## Properties of the phrase sorter -/

theorem swapPhrases_apply (i s : Nat) (arr : Nat → Phrase) (k : Nat) :
    swapPhrases i s arr k = if k = s then arr i else if k = i then arr s else arr k := by
  unfold swapPhrases
  simp only [Function.update_apply]

theorem sortInner_spec (arr : Nat → Phrase) :
    ∀ (k iter s : Nat),
      (arr (sortInner arr k iter s)).guessesRequired ≤ (arr s).guessesRequired ∧
      (∀ j, iter ≤ j → j < iter + k →
        (arr (sortInner arr k iter s)).guessesRequired ≤ (arr j).guessesRequired) ∧
      (sortInner arr k iter s = s ∨
        (iter ≤ sortInner arr k iter s ∧ sortInner arr k iter s < iter + k)) := by
  intro k
  induction k with
  | zero =>
    intro iter s
    refine ⟨le_refl _, ?_, Or.inl rfl⟩
    intro j h1 h2
    omega
  | succ k ih =>
    intro iter s
    simp only [sortInner]
    by_cases hlt : (arr iter).guessesRequired < (arr s).guessesRequired
    · rw [if_pos hlt]
      obtain ⟨h1, h2, h3⟩ := ih (iter + 1) iter
      refine ⟨by omega, ?_, ?_⟩
      · intro j hj1 hj2
        by_cases hji : j = iter
        · subst hji; exact h1
        · exact h2 j (by omega) (by omega)
      · right
        rcases h3 with h3 | h3
        · rw [h3]; omega
        · omega
    · rw [if_neg hlt]
      obtain ⟨h1, h2, h3⟩ := ih (iter + 1) s
      refine ⟨h1, ?_, ?_⟩
      · intro j hj1 hj2
        by_cases hji : j = iter
        · subst hji; omega
        · exact h2 j (by omega) (by omega)
      · rcases h3 with h3 | h3
        · exact Or.inl h3
        · right; omega

theorem sortedUpTo_step (n index : Nat) (arr : Nat → Phrase) (hidx : index < n)
    (h : sortedUpTo n index arr) :
    sortedUpTo n (index + 1)
      (swapPhrases index (sortInner arr (n - (index + 1)) (index + 1) index) arr) := by
  obtain ⟨h1, h2, h3⟩ := sortInner_spec arr (n - (index + 1)) (index + 1) index
  generalize sortInner arr (n - (index + 1)) (index + 1) index = s at h1 h2 h3
  have hs : index ≤ s ∧ s < n := by
    rcases h3 with h3 | h3
    · omega
    · omega
  have hmin : ∀ j, index ≤ j → j < n → (arr s).guessesRequired ≤ (arr j).guessesRequired := by
    intro j hj1 hj2
    by_cases hji : j = index
    · subst hji; exact h1
    · exact h2 j (by omega) (by omega)
  intro i j hij hjn hi
  rw [swapPhrases_apply, swapPhrases_apply]
  by_cases hii : i = index
  · subst hii
    have hjs : (arr s).guessesRequired ≤
        (if j = s then arr i else if j = i then arr s else arr j).guessesRequired := by
      split_ifs
      · exact hmin i (le_refl _) hidx
      · exact le_refl _
      · exact hmin j (by omega) hjn
    by_cases his : i = s
    · rw [if_pos his]
      rw [← his] at hjs ⊢
      exact hjs
    · rw [if_neg his, if_pos rfl]
      exact hjs
  · have hi1 : i < index := by omega
    rw [if_neg (by omega : ¬ i = s), if_neg hii]
    split_ifs
    · exact h i index hi1 hidx hi1
    · exact h i s (by omega) hs.2 hi1
    · exact h i j hij hjn hi1

theorem sortOuter_sorted (n : Nat) :
    ∀ (k index : Nat) (arr : Nat → Phrase), index + k = n → sortedUpTo n index arr →
      sortedUpTo n n (sortOuter n k index arr) := by
  intro k
  induction k with
  | zero =>
    intro index arr hk h
    have : index = n := by omega
    subst this
    exact h
  | succ k ih =>
    intro index arr hk h
    simp only [sortOuter]
    exact ih (index + 1) _ (by omega) (sortedUpTo_step n index arr (by omega) h)

/-- C2: after `sortPhrases(arr, n)` the first `n` entries are in ascending
order of `guessesRequired`: for all `i < j < n`,
`arr[i].guessesRequired <= arr[j].guessesRequired`. -/
theorem sortPhrases_sorted (arr : Nat → Phrase) (n : Int) (i j : Nat)
    (hij : i < j) (hjn : (j : Int) < n) :
    (sortPhrases arr n i).guessesRequired ≤ (sortPhrases arr n j).guessesRequired := by
  have hj : j < n.toNat := by omega
  have h0 : sortedUpTo n.toNat 0 arr := by
    intro a b _ _ ha
    omega
  exact sortOuter_sorted n.toNat n.toNat 0 arr (by omega) h0 i j hij hj (by omega)

theorem sortPhrases_sorted_witness :
    (0 : Nat) < 2 ∧ ((2 : Nat) : Int) < 3 ∧
      (sortPhrases sampleArray 3 0).guessesRequired = 1 ∧
      (sortPhrases sampleArray 3 2).guessesRequired = 3 ∧
      (sortPhrases sampleArray 3 0).guessesRequired ≤
        (sortPhrases sampleArray 3 2).guessesRequired :=
  ⟨by decide, by decide, by decide, by decide,
    sortPhrases_sorted sampleArray 3 0 2 (by decide) (by decide)⟩

/-! ## Properties of the masking -/

theorem blanksInner_cons (cur b g : Int) (rest : List Int) :
    blanksInner cur b (g :: rest) = blanksInner cur 0 (g :: rest) := by
  simp only [blanksInner]

theorem blanksOuter_eq (G : List Int) :
    ∀ (p : List Int) (b : Int) (hold : List Int),
      blanksOuter G (if G.length = 0 then true else false) p b hold =
        hold ++ (p.map (renderChar G)).intersperse 32 := by
  intro p
  induction p with
  | nil => intro b hold; simp [blanksOuter]
  | cons cur rest ih =>
    intro b hold
    have hb : (if (!(if G.length = 0 then true else false)) = true then blanksInner cur b G
        else withoutGuesses cur) = renderChar G cur := by
      unfold renderChar
      cases G with
      | nil => simp
      | cons g gs => simp [blanksInner_cons cur b g gs]
    simp only [blanksOuter, hb]
    rw [ih]
    cases rest with
    | nil => simp
    | cons c cs => simp

theorem phraseWithBlanks_eq (p G : List Int) :
    phraseWithBlanks p G = (p.map (renderChar G)).intersperse 32 := by
  unfold phraseWithBlanks
  simp only []
  rw [blanksOuter_eq]
  simp

theorem intersperse_even (sep : Int) :
    ∀ (l : List Int) (i : Nat), (l.intersperse sep)[2 * i]? = l[i]? := by
  intro l
  induction l with
  | nil => intro i; simp
  | cons x xs ih =>
    intro i
    cases xs with
    | nil =>
      cases i with
      | zero => simp
      | succ i => simp [Nat.mul_succ]
    | cons y ys =>
      cases i with
      | zero => simp
      | succ i =>
        have h := ih i
        simp only [List.intersperse_cons₂, Nat.mul_succ, List.getElem?_cons_succ] at h ⊢
        exact h

theorem blanksInner_eq (cur : Int) :
    ∀ (G : List Int) (b : Int), G ≠ [] →
      blanksInner cur b G =
        if inShownRange cur ∨ ∃ g ∈ G, matchesGuess cur g then cur else 95 := by
  intro G
  induction G with
  | nil => intro b h; exact absurd rfl h
  | cons g gs ih =>
    intro b _
    simp only [blanksInner]
    by_cases hw : withGuesses cur g = 95
    · rw [if_neg (not_not.mpr hw)]
      cases gs with
      | nil =>
        simp only [blanksInner, hw]
        unfold withGuesses at hw
        unfold inShownRange matchesGuess
        simp only [List.mem_singleton, exists_eq_left]
        split_ifs at hw ⊢ <;> first | rfl | omega
      | cons g2 gs2 =>
        rw [ih _ (by simp)]
        unfold withGuesses at hw
        unfold inShownRange matchesGuess at *
        by_cases hm : cur = g ∨ cur = g - 32 ∨ cur = g + 32
        · rw [if_pos hm] at hw
          have h1 : ((cur ≥ 32 ∧ cur ≤ 64) ∨ (cur ≥ 91 ∧ cur ≤ 96)) := by omega
          rw [if_pos (Or.inl h1), if_pos (Or.inl h1)]
        · have hiff : ((∃ x ∈ g :: g2 :: gs2, cur = x ∨ cur = x - 32 ∨ cur = x + 32) ↔
              (∃ x ∈ g2 :: gs2, cur = x ∨ cur = x - 32 ∨ cur = x + 32)) := by
            constructor
            · rintro ⟨x, hx, hxm⟩
              rcases List.mem_cons.mp hx with hx | hx
              · subst hx; exact absurd hxm hm
              · exact ⟨x, hx, hxm⟩
            · rintro ⟨x, hx, hxm⟩
              exact ⟨x, List.mem_cons_of_mem _ hx, hxm⟩
          exact if_congr (or_congr Iff.rfl hiff.symm) rfl rfl
    · rw [if_pos hw]
      have hcur : withGuesses cur g = cur := by
        unfold withGuesses at hw ⊢
        split_ifs at hw ⊢ <;> first | rfl | exact absurd rfl hw
      rw [hcur]
      have : inShownRange cur ∨ ∃ x ∈ g :: gs, matchesGuess cur x := by
        unfold withGuesses at hw
        unfold inShownRange matchesGuess
        split_ifs at hw with h1 h2
        · exact Or.inr ⟨g, List.mem_cons_self _ _, h1⟩
        · exact Or.inl h2
        · exact absurd rfl hw
      rw [if_pos this]

theorem renderChar_eq (G : List Int) (cur : Int) :
    renderChar G cur =
      if inShownRange cur ∨ ∃ g ∈ G, matchesGuess cur g then cur else 95 := by
  unfold renderChar
  cases G with
  | nil =>
    simp only [List.length_nil, ne_eq, not_true_eq_false, if_false, List.not_mem_nil,
      false_and, exists_false, or_false]
    unfold withoutGuesses inShownRange
    rfl
  | cons g gs =>
    rw [if_pos (by simp)]
    exact blanksInner_eq cur (g :: gs) 0 (by simp)

theorem phraseWithBlanks_getElem (p G : List Int) (i : Nat) :
    (phraseWithBlanks p G)[2 * i]? = (p[i]?).map (renderChar G) := by
  rw [phraseWithBlanks_eq, intersperse_even, List.getElem?_map]

theorem renderChar_shown (G : List Int) (cur : Int) (h : inShownRange cur) :
    renderChar G cur = cur := by
  rw [renderChar_eq, if_pos (Or.inl h)]

theorem matchesGuess_lower_iff (G : List Int) (c : Int) (hg : ∀ g ∈ G, isLower g)
    (hl : isLetter c) : (∃ g ∈ G, matchesGuess c g) ↔ toLower c ∈ G := by
  unfold isLetter at hl
  constructor
  · rintro ⟨g, hgG, hm⟩
    have hlow := hg g hgG
    unfold isLower at hlow
    unfold matchesGuess at hm
    have : toLower c = g := by
      unfold toLower
      split_ifs <;> omega
    rw [this]
    exact hgG
  · intro h
    refine ⟨toLower c, h, ?_⟩
    unfold matchesGuess toLower
    split_ifs <;> omega

/-- C3: with guesses made of lowercase letters (the empty string included),
the character rendered for a phrase position holding a letter is that letter
if its lowercase form is among the guesses and the underscore otherwise;
position `i` of the phrase is rendered at index `2 * i`.  Moreover
`phraseWithBlanks("cat","c") = "c _ _"`, `phraseWithBlanks("cat","cat") = "c a t"`
and `phraseWithBlanks("ab-c","") = "_ _ - _"`. -/
theorem phraseWithBlanks_letter (phrase guesses : List Int) (i : Nat) (c : Int)
    (hg : ∀ g ∈ guesses, isLower g) (hc : phrase[i]? = some c) (hl : isLetter c) :
    (phraseWithBlanks phrase guesses)[2 * i]? =
        some (if toLower c ∈ guesses then c else 95) ∧
      phraseWithBlanks (str "cat") (str "c") = str "c _ _" ∧
      phraseWithBlanks (str "cat") (str "cat") = str "c a t" ∧
      phraseWithBlanks (str "ab-c") (str "") = str "_ _ - _" := by
  refine ⟨?_, by decide, by decide, by decide⟩
  rw [phraseWithBlanks_getElem, hc, Option.map_some', renderChar_eq]
  have hns : ¬ inShownRange c := by
    unfold inShownRange; unfold isLetter at hl; omega
  have hiff := matchesGuess_lower_iff guesses c hg hl
  congr 1
  by_cases hm : toLower c ∈ guesses
  · rw [if_pos hm, if_pos (Or.inr (hiff.mpr hm))]
  · rw [if_neg hm, if_neg]
    rintro (h | h)
    · exact hns h
    · exact hm (hiff.mp h)

theorem phraseWithBlanks_letter_witness :
    (phraseWithBlanks (str "Cat") (str "c"))[2 * 0]? = some 67 ∧
      (phraseWithBlanks (str "Cat") (str "c"))[2 * 1]? = some 95 :=
  ⟨(phraseWithBlanks_letter (str "Cat") (str "c") 0 67 (by decide) (by decide)
      (by decide)).1,
   (phraseWithBlanks_letter (str "Cat") (str "c") 1 97 (by decide) (by decide)
      (by decide)).1⟩

/-- C4: the printable non-letter `\x7b` (code 123) of the phrase `a\x7bb` is
rendered as the underscore, with no guess and with the guess `a` alike; the
range test of `withGuesses` and `withoutGuesses` stops at the backquote and
leaves out the four punctuation characters after `z`. -/
theorem phraseWithBlanks_brace_masked :
    ¬ isLetter 123 ∧
      phraseWithBlanks (str "a\x7bb") (str "") = str "_ _ _" ∧
      phraseWithBlanks (str "a\x7bb") (str "a") = str "a _ _" := by
  decide

/-! ## Properties of the guess classification -/

theorem alreadyGuessed_iff (u : Int) (l : List Int) :
    alreadyGuessed u l = true ↔ ∃ g ∈ l, sameLetter u g := by
  unfold sameLetter
  induction l with
  | nil => simp [alreadyGuessed]
  | cons g rest ih =>
    simp only [alreadyGuessed, List.mem_cons, exists_eq_or_imp]
    by_cases h : u = g ∨ u = g + 32 ∨ u = g - 32
    · simp [h]
    · rw [if_neg h, ih]
      simp [h]

theorem scanPhrase_eq (u : Int) :
    ∀ (p : List Int) (st : GuessArray),
      scanPhrase u p st =
        if ∃ x ∈ p, sameLetter u x then recordCorrect u st
        else if p = [] then st else recordWrong u st := by
  unfold sameLetter
  intro p
  induction p with
  | nil => intro st; simp [scanPhrase]
  | cons x rest ih =>
    intro st
    simp only [scanPhrase, List.mem_cons, exists_eq_or_imp]
    by_cases h : u = x ∨ u = x + 32 ∨ u = x - 32
    · simp [h]
    · rw [if_neg h]
      cases rest with
      | nil => simp [scanPhrase, h]
      | cons y ys =>
        rw [if_neg (by simp), ih]
        simp [h]

theorem checkGuess_cases (u : Int) (p : List Int) (st : GuessArray) :
    checkGuess u p st = st ∨
      ((¬ ∃ g ∈ st.all.charGuesses, sameLetter u g) ∧
        (checkGuess u p st = recordCorrect u st ∨ checkGuess u p st = recordWrong u st)) := by
  unfold checkGuess
  split_ifs with h1 h2
  · exact Or.inl rfl
  · exact Or.inl rfl
  · rw [alreadyGuessed_iff] at h2
    rw [scanPhrase_eq]
    split_ifs
    · exact Or.inr ⟨h2, Or.inl rfl⟩
    · exact Or.inl rfl
    · exact Or.inr ⟨h2, Or.inr rfl⟩

theorem not_mem_of_not_sameLetter (u : Int) (l : List Int)
    (h : ¬ ∃ g ∈ l, sameLetter u g) : u ∉ l := by
  intro hu
  exact h ⟨u, hu, Or.inl rfl⟩

/-- C5: in a guess array reached from the empty one through `checkGuess`, a
character `c` recorded in `allGuesses`, a letter in particular, that is
submitted again in either case (`u` with `toLower u = toLower c`) is rejected:
the duplicate loop finds it, and the strings and counts of the three
accumulators come back unchanged. -/
theorem checkGuess_duplicate (phrase inputs : List Int) (c u : Int)
    (hmem : c ∈ (applyGuesses phrase inputs emptyGuesses).all.charGuesses)
    (hu : toLower u = toLower c) :
    alreadyGuessed u (applyGuesses phrase inputs emptyGuesses).all.charGuesses = true ∧
      checkGuess u phrase (applyGuesses phrase inputs emptyGuesses) =
        applyGuesses phrase inputs emptyGuesses := by
  have hsame : sameLetter u c := by
    unfold sameLetter
    unfold toLower at hu
    split_ifs at hu <;> omega
  have hdup : alreadyGuessed u (applyGuesses phrase inputs emptyGuesses).all.charGuesses
      = true := (alreadyGuessed_iff _ _).mpr ⟨c, hmem, hsame⟩
  refine ⟨hdup, ?_⟩
  unfold checkGuess
  rw [hdup]
  simp

theorem checkGuess_duplicate_witness :
    applyGuesses (str "cat") (str "a") emptyGuesses = ⟨⟨1, str "a"⟩, ⟨0, []⟩, ⟨1, str "a"⟩⟩ ∧
      checkGuess 65 (str "cat") (applyGuesses (str "cat") (str "a") emptyGuesses) =
        applyGuesses (str "cat") (str "a") emptyGuesses :=
  ⟨by decide,
    (checkGuess_duplicate (str "cat") (str "a") 97 65 (by decide) (by decide)).2⟩

/-- C6: the input `\x7b` (code 123) is not a letter, yet `checkGuess` on the
phrase "cat" with the empty guess array records it as a wrong guess; the range
test at the head of `checkGuess` leaves out the characters after `z`. -/
theorem checkGuess_brace_recorded :
    ¬ isLetter 123 ∧
      checkGuess 123 (str "cat") emptyGuesses =
        ⟨⟨0, []⟩, ⟨1, [123]⟩, ⟨1, [123]⟩⟩ := by
  decide

theorem length_le_of_nodup_isChar (l : List Int) (hn : l.Nodup)
    (hc : ∀ x ∈ l, isChar x) : l.length ≤ 256 := by
  have hsub : l.toFinset ⊆ Finset.Icc (-128 : Int) 127 := by
    intro x hx
    rw [List.mem_toFinset] at hx
    exact Finset.mem_Icc.mpr (hc x hx)
  have hcard := Finset.card_le_card hsub
  rw [List.toFinset_card_of_nodup hn, Int.card_Icc] at hcard
  exact hcard

theorem GuessInv_empty : GuessInv emptyGuesses := by
  constructor <;> simp [emptyGuesses]

theorem GuessInv_bounds (st : GuessArray) (h : GuessInv st) :
    st.all.charGuesses.length ≤ 256 ∧ st.correct.charGuesses.length ≤ 256 ∧
      st.wrong.charGuesses.length ≤ 256 := by
  have h1 := length_le_of_nodup_isChar _ h.nodup h.chars
  have h2 := h.length_all
  omega

theorem GuessInv_recordCorrect (u : Int) (st : GuessArray) (h : GuessInv st)
    (hu : isChar u) (hnew : u ∉ st.all.charGuesses) : GuessInv (recordCorrect u st) := by
  obtain ⟨b1, b2, b3⟩ := GuessInv_bounds st h
  have hw : u ∉ st.wrong.charGuesses := fun hx => hnew (h.wrong_sub u hx)
  constructor
  · simp only [recordCorrect, addGuess]
    rw [List.nodup_append]
    refine ⟨h.nodup, List.nodup_singleton u, ?_⟩
    intro x hx hx2
    rw [List.mem_singleton] at hx2
    subst hx2
    exact hnew hx
  · simp only [recordCorrect, addGuess, List.mem_append, List.mem_singleton]
    rintro x (hx | hx)
    · exact h.chars x hx
    · subst hx; exact hu
  · simp only [recordCorrect, addGuess, List.mem_append, List.mem_singleton]
    rintro x (hx | hx)
    · rcases h.split x hx with h1 | h1
      · exact Or.inl (Or.inl h1)
      · exact Or.inr h1
    · exact Or.inl (Or.inr hx)
  · simp only [recordCorrect, addGuess, List.mem_append, List.mem_singleton]
    rintro x (hx | hx)
    · exact Or.inl (h.correct_sub x hx)
    · exact Or.inr hx
  · simp only [recordCorrect, addGuess, List.mem_append, List.mem_singleton]
    intro x hx
    exact Or.inl (h.wrong_sub x hx)
  · simp only [recordCorrect, addGuess, List.mem_append, List.mem_singleton]
    rintro x (hx | hx)
    · exact h.disjoint x hx
    · subst hx; exact hw
  · simp only [recordCorrect, addGuess, List.length_append, List.length_singleton]
    have := h.length_all
    omega
  · simp only [recordCorrect, addGuess, List.length_append, List.length_singleton]
    rw [h.num_correct]
    exact Nat.mod_eq_of_lt (by omega)
  · simp only [recordCorrect]
    exact h.num_wrong
  · simp only [recordCorrect, addGuess, List.length_append, List.length_singleton]
    rw [h.num_all]
    exact Nat.mod_eq_of_lt (by omega)

theorem GuessInv_recordWrong (u : Int) (st : GuessArray) (h : GuessInv st)
    (hu : isChar u) (hnew : u ∉ st.all.charGuesses) : GuessInv (recordWrong u st) := by
  obtain ⟨b1, b2, b3⟩ := GuessInv_bounds st h
  have hc : u ∉ st.correct.charGuesses := fun hx => hnew (h.correct_sub u hx)
  constructor
  · simp only [recordWrong, addGuess]
    rw [List.nodup_append]
    refine ⟨h.nodup, List.nodup_singleton u, ?_⟩
    intro x hx hx2
    rw [List.mem_singleton] at hx2
    subst hx2
    exact hnew hx
  · simp only [recordWrong, addGuess, List.mem_append, List.mem_singleton]
    rintro x (hx | hx)
    · exact h.chars x hx
    · subst hx; exact hu
  · simp only [recordWrong, addGuess, List.mem_append, List.mem_singleton]
    rintro x (hx | hx)
    · rcases h.split x hx with h1 | h1
      · exact Or.inl h1
      · exact Or.inr (Or.inl h1)
    · exact Or.inr (Or.inr hx)
  · simp only [recordWrong, addGuess, List.mem_append, List.mem_singleton]
    intro x hx
    exact Or.inl (h.correct_sub x hx)
  · simp only [recordWrong, addGuess, List.mem_append, List.mem_singleton]
    rintro x (hx | hx)
    · exact Or.inl (h.wrong_sub x hx)
    · exact Or.inr hx
  · simp only [recordWrong, addGuess, List.mem_append, List.mem_singleton]
    rintro x hx (hx2 | hx2)
    · exact h.disjoint x hx hx2
    · subst hx2; exact hc hx
  · simp only [recordWrong, addGuess, List.length_append, List.length_singleton]
    have := h.length_all
    omega
  · simp only [recordWrong]
    exact h.num_correct
  · simp only [recordWrong, addGuess, List.length_append, List.length_singleton]
    rw [h.num_wrong]
    exact Nat.mod_eq_of_lt (by omega)
  · simp only [recordWrong, addGuess, List.length_append, List.length_singleton]
    rw [h.num_all]
    exact Nat.mod_eq_of_lt (by omega)

theorem GuessInv_checkGuess (u : Int) (p : List Int) (st : GuessArray) (h : GuessInv st)
    (hu : isChar u) : GuessInv (checkGuess u p st) := by
  rcases checkGuess_cases u p st with h1 | ⟨hnd, h1 | h1⟩
  · rw [h1]; exact h
  · rw [h1]; exact GuessInv_recordCorrect u st h hu (not_mem_of_not_sameLetter u _ hnd)
  · rw [h1]; exact GuessInv_recordWrong u st h hu (not_mem_of_not_sameLetter u _ hnd)

theorem GuessInv_applyGuesses (p : List Int) :
    ∀ (inputs : List Int) (st : GuessArray), GuessInv st → (∀ u ∈ inputs, isChar u) →
      GuessInv (applyGuesses p inputs st) := by
  intro inputs
  induction inputs with
  | nil => intro st h _; exact h
  | cons u rest ih =>
    intro st h hin
    simp only [applyGuesses, List.foldl_cons]
    exact ih _ (GuessInv_checkGuess u p st h (hin u (List.mem_cons_self _ _)))
      (fun v hv => hin v (List.mem_cons_of_mem _ hv))

theorem checkGuess_all_mem (u : Int) (p : List Int) (st : GuessArray) :
    ∀ x ∈ (checkGuess u p st).all.charGuesses, x ∈ st.all.charGuesses ∨ x = u := by
  intro x hx
  rcases checkGuess_cases u p st with h1 | ⟨_, h1 | h1⟩
  · rw [h1] at hx; exact Or.inl hx
  · rw [h1] at hx
    simpa [recordCorrect, addGuess] using hx
  · rw [h1] at hx
    simpa [recordWrong, addGuess] using hx

theorem applyGuesses_all_mem (p : List Int) :
    ∀ (inputs : List Int) (st : GuessArray),
      ∀ x ∈ (applyGuesses p inputs st).all.charGuesses,
        x ∈ st.all.charGuesses ∨ x ∈ inputs := by
  intro inputs
  induction inputs with
  | nil => intro st x hx; exact Or.inl hx
  | cons u rest ih =>
    intro st x hx
    simp only [applyGuesses, List.foldl_cons] at hx
    rcases ih _ x hx with h1 | h1
    · rcases checkGuess_all_mem u p st x h1 with h2 | h2
      · exact Or.inl h2
      · exact Or.inr (by rw [h2]; exact List.mem_cons_self _ _)
    · exact Or.inr (List.mem_cons_of_mem _ h1)

theorem isChar_toLower (u : Int) (h : isChar u) : isChar (toLower u) := by
  unfold isChar toLower at *
  split_ifs <;> omega

/-- In a session the guesses are lowercased characters: nothing recorded is an
uppercase letter or lies above 127. -/
theorem session_all_chars (p inputs : List Int) (hin : ∀ u ∈ inputs, isChar u) :
    ∀ x ∈ (applyGuesses p (inputs.map toLower) emptyGuesses).all.charGuesses,
      x ≤ 127 ∧ ¬ (65 ≤ x ∧ x ≤ 90) := by
  intro x hx
  rcases applyGuesses_all_mem p _ emptyGuesses x hx with h1 | h1
  · simp [emptyGuesses] at h1
  · rw [List.mem_map] at h1
    obtain ⟨v, hv, hvx⟩ := h1
    have := hin v hv
    unfold isChar at this
    unfold toLower at hvx
    split_ifs at hvx <;> omega

theorem session_GuessInv (p inputs : List Int) (hin : ∀ u ∈ inputs, isChar u) :
    GuessInv (applyGuesses p (inputs.map toLower) emptyGuesses) := by
  apply GuessInv_applyGuesses p _ _ GuessInv_empty
  intro u hu
  rw [List.mem_map] at hu
  obtain ⟨v, hv, hvu⟩ := hu
  rw [← hvu]
  exact isChar_toLower v (hin v hv)

theorem session_not_guessed (p inputs : List Int) (hin : ∀ u ∈ inputs, isChar u) (c : Int)
    (hc : isLower c)
    (hnew : c ∉ (applyGuesses p (inputs.map toLower) emptyGuesses).all.charGuesses) :
    alreadyGuessed c (applyGuesses p (inputs.map toLower) emptyGuesses).all.charGuesses
      = false := by
  rw [Bool.eq_false_iff, Ne, alreadyGuessed_iff]
  rintro ⟨g, hg, hs⟩
  have hb := session_all_chars p inputs hin g hg
  unfold isLower at hc
  unfold sameLetter at hs
  have : c = g := by omega
  exact hnew (this ▸ hg)

/-- C7: in a guess array reached in a session (from the empty array through
`checkGuess` on lowercased characters), a lowercase letter `c` not yet in
`allGuesses` that occurs in the phrase in either case is appended once to
`correctGuesses` and to `allGuesses`, both counts grow by one, and
`wrongGuesses` is left as it is. -/
theorem checkGuess_correct (phrase inputs : List Int) (c : Int)
    (hin : ∀ u ∈ inputs, isChar u) (hc : isLower c)
    (hnew : c ∉ (applyGuesses phrase (inputs.map toLower) emptyGuesses).all.charGuesses)
    (hocc : c ∈ phrase ∨ c - 32 ∈ phrase) :
    checkGuess c phrase (applyGuesses phrase (inputs.map toLower) emptyGuesses) =
      { correct :=
          ⟨(applyGuesses phrase (inputs.map toLower) emptyGuesses).correct.numOfGuesses + 1,
           (applyGuesses phrase (inputs.map toLower) emptyGuesses).correct.charGuesses ++ [c]⟩,
        wrong := (applyGuesses phrase (inputs.map toLower) emptyGuesses).wrong,
        all :=
          ⟨(applyGuesses phrase (inputs.map toLower) emptyGuesses).all.numOfGuesses + 1,
           (applyGuesses phrase (inputs.map toLower) emptyGuesses).all.charGuesses ++ [c]⟩ } := by
  have hinv := session_GuessInv phrase inputs hin
  have hdup := session_not_guessed phrase inputs hin c hc hnew
  generalize applyGuesses phrase (inputs.map toLower) emptyGuesses = st at *
  obtain ⟨b1, b2, b3⟩ := GuessInv_bounds st hinv
  have hgate : ¬ ((c ≥ 32 ∧ c ≤ 64) ∨ (c ≥ 91 ∧ c ≤ 96)) := by
    unfold isLower at hc; omega
  have hex : ∃ x ∈ phrase, sameLetter c x := by
    rcases hocc with h | h
    · exact ⟨c, h, Or.inl rfl⟩
    · exact ⟨c - 32, h, Or.inr (Or.inl (by omega))⟩
  unfold checkGuess
  rw [if_neg hgate, hdup, scanPhrase_eq, if_pos hex]
  simp only [recordCorrect, addGuess, Bool.false_eq_true, if_false]
  rw [Nat.mod_eq_of_lt (by rw [hinv.num_correct]; omega),
    Nat.mod_eq_of_lt (by rw [hinv.num_all]; omega)]

theorem checkGuess_correct_witness :
    applyGuesses (str "Cat") ((str "X").map toLower) emptyGuesses =
        ⟨⟨0, []⟩, ⟨1, str "x"⟩, ⟨1, str "x"⟩⟩ ∧
      checkGuess 99 (str "Cat") (applyGuesses (str "Cat") ((str "X").map toLower) emptyGuesses) =
        ⟨⟨0 + 1, [] ++ [99]⟩, ⟨1, str "x"⟩, ⟨1 + 1, str "x" ++ [99]⟩⟩ :=
  ⟨by decide, checkGuess_correct (str "Cat") (str "X") 99 (by decide) (by decide)
    (by decide) (by decide)⟩

/-- For a phrase that is not empty, a lowercase letter not yet in `allGuesses`
that occurs nowhere in the phrase is appended once to `wrongGuesses` and to
`allGuesses`, both counts grow by one, `correctGuesses` is left as it is. -/
theorem checkGuess_wrong_of_nonempty (phrase inputs : List Int) (c : Int)
    (hne : phrase ≠ []) (hph : ∀ x ∈ phrase, isChar x)
    (hin : ∀ u ∈ inputs, isChar u) (hc : isLower c)
    (hnew : c ∉ (applyGuesses phrase (inputs.map toLower) emptyGuesses).all.charGuesses)
    (hocc : c ∉ phrase ∧ c - 32 ∉ phrase) :
    checkGuess c phrase (applyGuesses phrase (inputs.map toLower) emptyGuesses) =
      { correct := (applyGuesses phrase (inputs.map toLower) emptyGuesses).correct,
        wrong :=
          ⟨(applyGuesses phrase (inputs.map toLower) emptyGuesses).wrong.numOfGuesses + 1,
           (applyGuesses phrase (inputs.map toLower) emptyGuesses).wrong.charGuesses ++ [c]⟩,
        all :=
          ⟨(applyGuesses phrase (inputs.map toLower) emptyGuesses).all.numOfGuesses + 1,
           (applyGuesses phrase (inputs.map toLower) emptyGuesses).all.charGuesses ++ [c]⟩ } := by
  have hinv := session_GuessInv phrase inputs hin
  have hdup := session_not_guessed phrase inputs hin c hc hnew
  generalize applyGuesses phrase (inputs.map toLower) emptyGuesses = st at *
  obtain ⟨b1, b2, b3⟩ := GuessInv_bounds st hinv
  have hgate : ¬ ((c ≥ 32 ∧ c ≤ 64) ∨ (c ≥ 91 ∧ c ≤ 96)) := by
    unfold isLower at hc; omega
  have hex : ¬ ∃ x ∈ phrase, sameLetter c x := by
    rintro ⟨x, hx, hs⟩
    have hxc := hph x hx
    unfold isChar at hxc
    unfold isLower at hc
    unfold sameLetter at hs
    rcases hs with h | h | h
    · exact hocc.1 (h ▸ hx)
    · have : x = c - 32 := by omega
      exact hocc.2 (this ▸ hx)
    · omega
  unfold checkGuess
  rw [if_neg hgate, hdup, scanPhrase_eq, if_neg hex, if_neg hne]
  simp only [recordWrong, addGuess, Bool.false_eq_true, if_false]
  rw [Nat.mod_eq_of_lt (by rw [hinv.num_wrong]; omega),
    Nat.mod_eq_of_lt (by rw [hinv.num_all]; omega)]

/-- C8: on the empty phrase the lowercase letter `x` (code 120), which is not
in `allGuesses` and occurs nowhere in the phrase, is not recorded at all:
`checkGuess` returns the guess array unchanged, the "bad guess" branch sitting
inside the loop over the characters of the phrase. -/
theorem checkGuess_empty_phrase_unrecorded :
    isLower 120 ∧ (120 : Int) ∉ emptyGuesses.all.charGuesses ∧
      (120 : Int) ∉ str "" ∧ (120 - 32 : Int) ∉ str "" ∧
      checkGuess 120 (str "") emptyGuesses = emptyGuesses := by
  decide

/-- C9: in every guess array reached from the empty accumulators by a sequence
of `checkGuess` calls on a phrase, every character of `allGuesses` is in
exactly one of `correctGuesses` and `wrongGuesses`, the length of `allGuesses`
is the sum of the lengths of the two others, and each `numOfGuesses` equals
the length of its `charGuesses`. -/
theorem guess_array_invariant (phrase inputs : List Int)
    (hin : ∀ u ∈ inputs, isChar u) :
    (∀ x ∈ (applyGuesses phrase inputs emptyGuesses).all.charGuesses,
        (x ∈ (applyGuesses phrase inputs emptyGuesses).correct.charGuesses ∧
          x ∉ (applyGuesses phrase inputs emptyGuesses).wrong.charGuesses) ∨
        (x ∉ (applyGuesses phrase inputs emptyGuesses).correct.charGuesses ∧
          x ∈ (applyGuesses phrase inputs emptyGuesses).wrong.charGuesses)) ∧
      (applyGuesses phrase inputs emptyGuesses).all.charGuesses.length =
        (applyGuesses phrase inputs emptyGuesses).correct.charGuesses.length +
          (applyGuesses phrase inputs emptyGuesses).wrong.charGuesses.length ∧
      (applyGuesses phrase inputs emptyGuesses).correct.numOfGuesses =
        (applyGuesses phrase inputs emptyGuesses).correct.charGuesses.length ∧
      (applyGuesses phrase inputs emptyGuesses).wrong.numOfGuesses =
        (applyGuesses phrase inputs emptyGuesses).wrong.charGuesses.length ∧
      (applyGuesses phrase inputs emptyGuesses).all.numOfGuesses =
        (applyGuesses phrase inputs emptyGuesses).all.charGuesses.length := by
  have h := GuessInv_applyGuesses phrase inputs emptyGuesses GuessInv_empty hin
  refine ⟨?_, h.length_all, h.num_correct, h.num_wrong, h.num_all⟩
  intro x hx
  rcases h.split x hx with h1 | h1
  · exact Or.inl ⟨h1, h.disjoint x h1⟩
  · exact Or.inr ⟨fun h2 => h.disjoint x h2 h1, h1⟩

theorem guess_array_invariant_witness :
    applyGuesses (str "cat") (str "cxcA1t") emptyGuesses =
        ⟨⟨3, str "cAt"⟩, ⟨1, str "x"⟩, ⟨4, str "cxAt"⟩⟩ ∧
      (applyGuesses (str "cat") (str "cxcA1t") emptyGuesses).all.charGuesses.length =
        (applyGuesses (str "cat") (str "cxcA1t") emptyGuesses).correct.charGuesses.length +
          (applyGuesses (str "cat") (str "cxcA1t") emptyGuesses).wrong.charGuesses.length :=
  ⟨by decide, (guess_array_invariant (str "cat") (str "cxcA1t") (by decide)).2.1⟩

/-! ## Properties of the game session -/

theorem checkGuess_wrong_cases (u : Int) (p : List Int) (st : GuessArray) :
    (checkGuess u p st).wrong = st.wrong ∨
      ((checkGuess u p st).wrong = addGuess st.wrong u ∧
        (checkGuess u p st).correct = st.correct) := by
  rcases checkGuess_cases u p st with h1 | ⟨_, h1 | h1⟩
  · rw [h1]; exact Or.inl rfl
  · rw [h1]; exact Or.inl rfl
  · rw [h1]; exact Or.inr ⟨rfl, rfl⟩

theorem loopCondition_iff (text : List Int) (st : GuessArray) :
    loopCondition text st = true ↔
      (revealed text st = false ∧ st.wrong.numOfGuesses < 5) := by
  unfold loopCondition revealed
  simp

theorem loopEntry_empty (text : List Int) : loopEntry text emptyGuesses := by
  unfold loopEntry emptyGuesses
  simp

theorem loopEntry_step (text : List Int) (u : Int) (st : GuessArray)
    (h : loopEntry text st) :
    (checkGuess u text st).wrong.numOfGuesses ≤ 5 ∧
      (checkGuess u text st).wrong.charGuesses.length =
        (checkGuess u text st).wrong.numOfGuesses ∧
      ¬ (revealed text (checkGuess u text st) = true ∧
          (checkGuess u text st).wrong.numOfGuesses = 5) ∧
      (loopCondition text (checkGuess u text st) = true →
        loopEntry text (checkGuess u text st)) := by
  obtain ⟨h1, h2, h3⟩ := h
  have hentry : (checkGuess u text st).wrong.charGuesses.length =
        (checkGuess u text st).wrong.numOfGuesses →
      loopCondition text (checkGuess u text st) = true →
        loopEntry text (checkGuess u text st) := by
    intro hlen hc
    rw [loopCondition_iff] at hc
    exact ⟨hc.2, hlen, fun _ => hc.1⟩
  rcases checkGuess_wrong_cases u text st with hw | ⟨hw, hcor⟩
  · have hlen : (checkGuess u text st).wrong.charGuesses.length =
        (checkGuess u text st).wrong.numOfGuesses := by rw [hw]; exact h2
    refine ⟨by rw [hw]; omega, hlen, ?_, hentry hlen⟩
    rintro ⟨_, h5⟩
    rw [hw] at h5
    omega
  · have hnum : (checkGuess u text st).wrong.numOfGuesses = st.wrong.numOfGuesses + 1 := by
      rw [hw]
      simp only [addGuess]
      exact Nat.mod_eq_of_lt (by omega)
    have hlen : (checkGuess u text st).wrong.charGuesses.length =
        (checkGuess u text st).wrong.numOfGuesses := by
      rw [hnum, hw]
      simp only [addGuess, List.length_append, List.length_singleton]
      omega
    refine ⟨by omega, hlen, ?_, hentry hlen⟩
    rintro ⟨hrev, h5⟩
    have hrev2 : revealed text st = true := by
      unfold revealed at hrev ⊢
      rw [hcor] at hrev
      exact hrev
    have := h3 (by omega)
    rw [this] at hrev2
    exact Bool.false_ne_true hrev2

theorem runGameStates_bound (text : List Int) :
    ∀ (inputs : List Int) (st : GuessArray), loopEntry text st →
      ∀ s ∈ runGameStates text inputs st,
        s.wrong.numOfGuesses ≤ 5 ∧ s.wrong.charGuesses.length = s.wrong.numOfGuesses := by
  intro inputs
  induction inputs with
  | nil =>
    intro st h s hs
    simp only [runGameStates, List.mem_singleton] at hs
    subst hs
    exact ⟨by have := h.1; omega, h.2.1⟩
  | cons u rest ih =>
    intro st h s hs
    obtain ⟨k1, k2, _, k4⟩ := loopEntry_step text (toLower u) st h
    simp only [runGameStates, List.mem_cons] at hs
    rcases hs with hs | hs
    · subst hs
      exact ⟨by have := h.1; omega, h.2.1⟩
    · by_cases hc : loopCondition text (checkGuess (toLower u) text st) = true
      · rw [if_pos hc] at hs
        exact ih _ (k4 hc) s hs
      · rw [if_neg hc, List.mem_singleton] at hs
        subst hs
        exact ⟨k1, k2⟩

theorem runGameLoop_stop (text : List Int) :
    ∀ (inputs : List Int) (st : GuessArray), loopEntry text st →
      ∀ s, runGameLoop text inputs st = some s →
        loopCondition text s = false ∧ s.wrong.numOfGuesses ≤ 5 ∧
          ¬ (revealed text s = true ∧ s.wrong.numOfGuesses = 5) := by
  intro inputs
  induction inputs with
  | nil =>
    intro st _ s hs
    simp [runGameLoop] at hs
  | cons u rest ih =>
    intro st h s hs
    obtain ⟨k1, _, k3, k4⟩ := loopEntry_step text (toLower u) st h
    simp only [runGameLoop] at hs
    by_cases hc : loopCondition text (checkGuess (toLower u) text st) = true
    · rw [if_pos hc] at hs
      exact ih _ (k4 hc) s hs
    · rw [if_neg hc, Option.some.injEq] at hs
      subst hs
      exact ⟨by simpa using hc, k1, k3⟩

theorem runGameLoop_mem_states (text : List Int) :
    ∀ (inputs : List Int) (st : GuessArray) (s : GuessArray),
      runGameLoop text inputs st = some s → s ∈ runGameStates text inputs st := by
  intro inputs
  induction inputs with
  | nil =>
    intro st s hs
    simp [runGameLoop] at hs
  | cons u rest ih =>
    intro st s hs
    simp only [runGameLoop] at hs
    simp only [runGameStates, List.mem_cons]
    right
    by_cases hc : loopCondition text (checkGuess (toLower u) text st) = true
    · rw [if_pos hc] at hs ⊢
      exact ih _ s hs
    · rw [if_neg hc, Option.some.injEq] at hs
      rw [if_neg hc, List.mem_singleton]
      exact hs.symm

/-- C10: in every state of a session of `runGame` (empty accumulators, then
`checkGuess` on each lowercased input until the masked phrase has no
underscore or the wrong-guess count reaches 5) the wrong-guess count, which is
the number of recorded wrong guesses, is at most 5; and when the loop stops
the phrase is never fully revealed with a wrong-guess count of 5, so that
`displayResult` announces the loss exactly when the phrase is not revealed. -/
theorem runGame_wrong_guesses (text inputs : List Int) :
    (∀ s ∈ runGameStates text inputs emptyGuesses,
        s.wrong.numOfGuesses ≤ 5 ∧ s.wrong.charGuesses.length = s.wrong.numOfGuesses) ∧
      (∀ s, runGameLoop text inputs emptyGuesses = some s →
        s ∈ runGameStates text inputs emptyGuesses ∧
        ¬ (checkVictory (phraseWithBlanks text s.correct.charGuesses) = true ∧
            s.wrong.numOfGuesses = 5) ∧
        (displayResult s.wrong.numOfGuesses = Verdict.youreDead ↔
          checkVictory (phraseWithBlanks text s.correct.charGuesses) = false)) := by
  refine ⟨runGameStates_bound text inputs emptyGuesses (loopEntry_empty text), ?_⟩
  intro s hs
  obtain ⟨h1, h2, h3⟩ :=
    runGameLoop_stop text inputs emptyGuesses (loopEntry_empty text) s hs
  refine ⟨runGameLoop_mem_states text inputs emptyGuesses s hs, h3, ?_⟩
  have hstop : revealed text s = true ∨ s.wrong.numOfGuesses = 5 := by
    by_cases hr : revealed text s = true
    · exact Or.inl hr
    · right
      have hr2 : revealed text s = false := by simpa using hr
      by_contra h5
      have : loopCondition text s = true :=
        (loopCondition_iff text s).mpr ⟨hr2, by omega⟩
      rw [h1] at this
      exact Bool.false_ne_true this
  unfold revealed at h3 hstop
  unfold displayResult
  constructor
  · intro hd
    have h5 : s.wrong.numOfGuesses = 5 := by
      by_contra hne
      rw [if_neg hne] at hd
      exact absurd hd (by decide)
    by_contra hv
    exact h3 ⟨by simpa using hv, h5⟩
  · intro hv
    rcases hstop with hr | h5
    · rw [hv] at hr
      exact absurd hr Bool.false_ne_true
    · rw [if_pos h5]

theorem runGame_wrong_guesses_witness :
    runGameLoop (str "cat") (str "xyzCqw") emptyGuesses =
        some ⟨⟨1, str "c"⟩, ⟨5, str "xyzqw"⟩, ⟨6, str "xyzcqw"⟩⟩ ∧
      (displayResult 5 = Verdict.youreDead ↔
        checkVictory (phraseWithBlanks (str "cat") (str "c")) = false) :=
  ⟨by decide,
    ((runGame_wrong_guesses (str "cat") (str "xyzCqw")).2
      ⟨⟨1, str "c"⟩, ⟨5, str "xyzqw"⟩, ⟨6, str "xyzcqw"⟩⟩ (by decide)).2.2⟩

/-! ## Properties of the phrase selection -/

theorem drawIndex_eq (diff P : Int) (r : Nat) (randi : Int) (hP : 0 ≤ P) :
    drawIndex diff P (P.tmod 3) r randi =
      if diff = 0 then
        if P / 3 = 0 then none else some ((r : Int) % (P / 3))
      else if diff = 1 then
        if P / 3 = 0 then none else some ((r : Int) % (P / 3) + P / 3)
      else if diff = 2 then
        if P / 3 + P % 3 = 0 then none else some ((r : Int) % (P / 3 + P % 3) + P / 3 * 2)
      else some randi := by
  have h1 : P.tdiv 3 = P / 3 := Int.tdiv_eq_ediv hP (by norm_num)
  have h2 : P.tmod 3 = P % 3 := Int.tmod_eq_emod hP (by norm_num)
  have h3 : ∀ m : Int, 0 ≤ m → (r : Int).tmod m = (r : Int) % m :=
    fun m hm => Int.tmod_eq_emod (by omega) hm
  unfold drawIndex
  rw [h1, h2, h3 _ (by omega), h3 _ (by omega)]

theorem bandWidth_eq (diff P : Int) (hP : 0 ≤ P) :
    bandWidth diff P = if diff = 2 then P / 3 + P % 3 else P / 3 := by
  unfold bandWidth
  rw [Int.tdiv_eq_ediv hP (by norm_num), Int.tmod_eq_emod hP (by norm_num)]

/-- The draw is undefined exactly when the modulus is zero. -/
theorem drawIndex_eq_none_iff (diff P : Int) (r : Nat) (randi : Int) (hP : 0 ≤ P)
    (hd : diff = 0 ∨ diff = 1 ∨ diff = 2) :
    drawIndex diff P (P.tmod 3) r randi = none ↔ bandWidth diff P = 0 := by
  rw [drawIndex_eq diff P r randi hP, bandWidth_eq diff P hP]
  rcases hd with h | h | h <;> subst h <;> simp

theorem emod_mem_band (r : Nat) (m : Int) (hm : 0 < m) :
    0 ≤ (r : Int) % m ∧ (r : Int) % m < m :=
  ⟨Int.emod_nonneg _ (ne_of_gt hm), Int.emod_lt_of_pos _ hm⟩

theorem bandWidth_pos (diff P : Int) (hP : 3 ≤ P) : 0 < bandWidth diff P := by
  rw [bandWidth_eq diff P (by omega)]
  split_ifs <;> omega

/-- Whenever the modulus is positive the draw is defined and lies in the band
of its tier. -/
theorem drawIndex_band (diff P : Int) (r : Nat) (randi : Int) (hP : 0 ≤ P)
    (hw : 0 < bandWidth diff P) (hd : diff = 0 ∨ diff = 1 ∨ diff = 2) :
    ∃ i, drawIndex diff P (P.tmod 3) r randi = some i ∧
      (diff = 0 → 0 ≤ i ∧ i < P / 3) ∧
      (diff = 1 → P / 3 ≤ i ∧ i < P / 3 * 2) ∧
      (diff = 2 → P / 3 * 2 ≤ i ∧ i < P) := by
  rw [drawIndex_eq diff P r randi hP]
  rw [bandWidth_eq diff P hP] at hw
  rcases hd with h | h | h
  · subst h
    rw [if_neg (by decide)] at hw
    obtain ⟨a1, a2⟩ := emod_mem_band r (P / 3) hw
    generalize (r : Int) % (P / 3) = x at a1 a2
    refine ⟨x, ?_, ?_, ?_, ?_⟩
    · rw [if_pos rfl, if_neg (by omega)]
    · intro _; exact ⟨a1, a2⟩
    · intro h; exact absurd h (by decide)
    · intro h; exact absurd h (by decide)
  · subst h
    rw [if_neg (by decide)] at hw
    obtain ⟨a1, a2⟩ := emod_mem_band r (P / 3) hw
    generalize (r : Int) % (P / 3) = x at a1 a2
    refine ⟨x + P / 3, ?_, ?_, ?_, ?_⟩
    · rw [if_neg (by decide), if_pos rfl, if_neg (by omega)]
    · intro h; exact absurd h (by decide)
    · intro _; omega
    · intro h; exact absurd h (by decide)
  · subst h
    rw [if_pos rfl] at hw
    obtain ⟨b1, b2⟩ := emod_mem_band r (P / 3 + P % 3) hw
    generalize (r : Int) % (P / 3 + P % 3) = y at b1 b2
    refine ⟨y + P / 3 * 2, ?_, ?_, ?_, ?_⟩
    · rw [if_neg (by decide), if_neg (by decide), if_pos rfl, if_neg (by omega)]
    · intro h; exact absurd h (by decide)
    · intro h; exact absurd h (by decide)
    · intro _; omega

theorem drawnAt_spec (diff P : Int) (rand : Nat → Nat) (k : Nat) (randi : Int)
    (hP : 0 ≤ P) (hw : 0 < bandWidth diff P) (hd : diff = 0 ∨ diff = 1 ∨ diff = 2) :
    drawIndex diff P (P.tmod 3) (rand k) randi = some (drawnAt diff P rand k) ∧
      0 ≤ drawnAt diff P rand k ∧ drawnAt diff P rand k < P ∧
      (diff = 0 → 0 ≤ drawnAt diff P rand k ∧ drawnAt diff P rand k < P / 3) ∧
      (diff = 1 → P / 3 ≤ drawnAt diff P rand k ∧ drawnAt diff P rand k < P / 3 * 2) ∧
      (diff = 2 → P / 3 * 2 ≤ drawnAt diff P rand k ∧ drawnAt diff P rand k < P) := by
  obtain ⟨i, h1, h2, h3, h4⟩ := drawIndex_band diff P (rand k) (-1) hP hw hd
  have hi : drawnAt diff P rand k = i := by
    unfold drawnAt
    rw [h1]
    rfl
  have hsame : drawIndex diff P (P.tmod 3) (rand k) randi = some i := by
    rw [drawIndex_eq diff P (rand k) randi hP]
    rw [drawIndex_eq diff P (rand k) (-1) hP] at h1
    rcases hd with h | h | h <;> subst h <;> simpa using h1
  rw [hi]
  refine ⟨hsame, ?_, ?_, h2, h3, h4⟩
  · rcases hd with h | h | h
    · exact (h2 h).1
    · have := h3 h; omega
    · have := h4 h; omega
  · rcases hd with h | h | h
    · have := h2 h; omega
    · have := h3 h; omega
    · exact (h4 h).2

/-- The loop of `randomPhraseIndex` from `counter = c`: it stops at the first
draw that lands on an unused phrase, at the latest at the draw that brings
`counter` to 100. -/
theorem randomLoop_spec (diff P : Int) (arr : Nat → Phrase) (rand : Nat → Nat)
    (hP : 0 ≤ P) (hw : 0 < bandWidth diff P) (hd : diff = 0 ∨ diff = 1 ∨ diff = 2) :
    ∀ (fuel c : Nat) (randi : Int), fuel + c = 100 → 1 ≤ fuel →
      ∃ k, c ≤ k ∧ k < 100 ∧
        randomLoop diff P (P.tmod 3) arr rand fuel randi c =
          some (drawnAt diff P rand k, k + 1) ∧
        (∀ j, c ≤ j → j < k → (arr (drawnAt diff P rand j).toNat).isUsed = true) ∧
        ((arr (drawnAt diff P rand k).toNat).isUsed = false ∨ k = 99) := by
  intro fuel
  induction fuel with
  | zero => intro c randi _ h; omega
  | succ fuel ih =>
    intro c randi hc _
    obtain ⟨hdraw, hnn, _, _⟩ := drawnAt_spec diff P rand c randi hP hw hd
    simp only [randomLoop, hdraw]
    rw [if_neg (by omega)]
    by_cases hcont : ((arr (drawnAt diff P rand c).toNat).isUsed &&
        decide (c + 1 < 100)) = true
    · rw [if_pos hcont]
      simp only [Bool.and_eq_true, decide_eq_true_eq] at hcont
      obtain ⟨k, k1, k2, k3, k4, k5⟩ :=
        ih (c + 1) (drawnAt diff P rand c) (by omega) (by omega)
      refine ⟨k, by omega, k2, k3, ?_, k5⟩
      intro j hj1 hj2
      by_cases hjc : j = c
      · subst hjc; exact hcont.1
      · exact k4 j (by omega) hj2
    · rw [if_neg hcont]
      refine ⟨c, le_refl _, by omega, rfl, ?_, ?_⟩
      · intro j hj1 hj2; omega
      · simp only [Bool.and_eq_true, decide_eq_true_eq, not_and_or] at hcont
        rcases hcont with h | h
        · left; simpa using h
        · right; omega

theorem randomPhraseIndex_spec (diff P : Int) (arr : Nat → Phrase) (rand : Nat → Nat)
    (hP : 0 ≤ P) (hw : 0 < bandWidth diff P) (hd : diff = 0 ∨ diff = 1 ∨ diff = 2) :
    ∃ k, k < 100 ∧
      randomPhraseIndex diff arr P rand = some (drawnAt diff P rand k, decide (k = 99)) ∧
      (∀ j, j < k → (arr (drawnAt diff P rand j).toNat).isUsed = true) ∧
      ((arr (drawnAt diff P rand k).toNat).isUsed = false ∨ k = 99) := by
  obtain ⟨k, _, k2, k3, k4, k5⟩ :=
    randomLoop_spec diff P arr rand hP hw hd 100 0 (-1) (by omega) (by omega)
  refine ⟨k, k2, ?_, fun j hj => k4 j (by omega) hj, k5⟩
  unfold randomPhraseIndex
  simp only [k3]
  congr 2
  simp

/-- With a modulus of zero no index is returned: the first draw divides by
zero. -/
theorem randomPhraseIndex_none (diff P : Int) (arr : Nat → Phrase) (rand : Nat → Nat)
    (hP : 0 ≤ P) (hw : bandWidth diff P = 0) (hd : diff = 0 ∨ diff = 1 ∨ diff = 2) :
    randomPhraseIndex diff arr P rand = none := by
  have h := (drawIndex_eq_none_iff diff P (rand 0) (-1) hP hd).mpr hw
  unfold randomPhraseIndex
  simp only [randomLoop, h]

/-- The flag "Every phrase has been used." is raised exactly when the first 99
draws all land on used phrases, wherever the 100th lands. -/
theorem randomPhraseIndex_signal_iff (diff P : Int) (arr : Nat → Phrase)
    (rand : Nat → Nat) (hP : 0 ≤ P) (hw : 0 < bandWidth diff P)
    (hd : diff = 0 ∨ diff = 1 ∨ diff = 2) :
    (∃ i, randomPhraseIndex diff arr P rand = some (i, true)) ↔
      ∀ j, j < 99 → (arr (drawnAt diff P rand j).toNat).isUsed = true := by
  obtain ⟨k, k1, k2, k3, k4⟩ := randomPhraseIndex_spec diff P arr rand hP hw hd
  constructor
  · rintro ⟨i, hi⟩
    rw [k2] at hi
    have hk : k = 99 := by simpa using congrArg (fun o => o.map Prod.snd) hi
    subst hk
    exact k3
  · intro hall
    have hk : k = 99 := by
      rcases k4 with h | h
      · by_contra hne
        have := hall k (by omega)
        rw [h] at this
        exact absurd this (by decide)
      · exact h
    subst hk
    exact ⟨_, k2⟩

/-- C12 as stated fails: with 5 phrases, tier 2 and a random source that
returns 0, `randomPhraseIndex` returns the index 2, which is below
`(2 * 5) div 3 = 3`, the lower end of the band the claim gives for tier 2. -/
theorem randomPhraseIndex_band_counterexample :
    randomPhraseIndex 2 sampleArray 5 (fun _ => 0) = some (2, false) ∧
      ¬ ((2 * 5 : Int) / 3 ≤ 2) := by
  decide

/-- C12 (amended): for `P >= 3` phrases and every random source, every index
drawn by `randomPhraseIndex`, and the index it returns, lies in the band of the
tier, the bands being cut at `P/3` and `(P/3)*2`: tier 0 in `[0, P/3)`, tier 1
in `[P/3, (P/3)*2)`, tier 2 in `[(P/3)*2, P)`, where
`P = P/3*2 + P/3 + P mod 3`. -/
theorem randomPhraseIndex_band (diff P : Int) (arr : Nat → Phrase) (rand : Nat → Nat)
    (hP : 3 ≤ P) (hd : diff = 0 ∨ diff = 1 ∨ diff = 2) :
    (∀ k, (diff = 0 → 0 ≤ drawnAt diff P rand k ∧ drawnAt diff P rand k < P / 3) ∧
        (diff = 1 → P / 3 ≤ drawnAt diff P rand k ∧ drawnAt diff P rand k < P / 3 * 2) ∧
        (diff = 2 → P / 3 * 2 ≤ drawnAt diff P rand k ∧ drawnAt diff P rand k < P)) ∧
      (∃ i s, randomPhraseIndex diff arr P rand = some (i, s) ∧
        (diff = 0 → 0 ≤ i ∧ i < P / 3) ∧
        (diff = 1 → P / 3 ≤ i ∧ i < P / 3 * 2) ∧
        (diff = 2 → P / 3 * 2 ≤ i ∧ i < P)) ∧
      P = P / 3 * 2 + P / 3 + P % 3 := by
  have hall : ∀ k, (diff = 0 → 0 ≤ drawnAt diff P rand k ∧ drawnAt diff P rand k < P / 3) ∧
      (diff = 1 → P / 3 ≤ drawnAt diff P rand k ∧ drawnAt diff P rand k < P / 3 * 2) ∧
      (diff = 2 → P / 3 * 2 ≤ drawnAt diff P rand k ∧ drawnAt diff P rand k < P) := by
    intro k
    obtain ⟨_, _, _, h⟩ :=
      drawnAt_spec diff P rand k (-1) (by omega) (bandWidth_pos diff P hP) hd
    exact h
  refine ⟨hall, ?_, by omega⟩
  obtain ⟨k, _, hk, _, _⟩ :=
    randomPhraseIndex_spec diff P arr rand (by omega) (bandWidth_pos diff P hP) hd
  exact ⟨drawnAt diff P rand k, decide (k = 99), hk, hall k⟩

theorem randomPhraseIndex_band_witness :
    randomPhraseIndex 2 sampleArray 5 (fun _ => 0) = some (2, false) ∧
      (5 : Int) = 5 / 3 * 2 + 5 / 3 + 5 % 3 ∧
      ∃ i s, randomPhraseIndex 2 sampleArray 5 (fun _ => 0) = some (i, s) ∧
        ((2 : Int) = 0 → 0 ≤ i ∧ i < 5 / 3) ∧
        ((2 : Int) = 1 → 5 / 3 ≤ i ∧ i < 5 / 3 * 2) ∧
        ((2 : Int) = 2 → 5 / 3 * 2 ≤ i ∧ i < 5) :=
  ⟨by decide, by decide,
    (randomPhraseIndex_band 2 5 sampleArray (fun _ => 0) (by decide) (by decide)).2.1⟩

/-- C14: with the random source as a sequence of draws, `P >= 3` and a tier
0, 1 or 2, `randomPhraseIndex` returns the index of the first of at most 100
draws that lands on a phrase whose used flag is false (every earlier draw
landed on a used phrase); hence the returned phrase is unused whenever one of
the first 100 draws hits an unused phrase, and when all 100 draws land on used
phrases the index of the 100th draw is returned. -/
theorem randomPhraseIndex_first_unused (diff P : Int) (arr : Nat → Phrase)
    (rand : Nat → Nat) (hP : 3 ≤ P) (hd : diff = 0 ∨ diff = 1 ∨ diff = 2) :
    (∃ k s, k < 100 ∧
        randomPhraseIndex diff arr P rand = some (drawnAt diff P rand k, s) ∧
        (∀ j, j < k → (arr (drawnAt diff P rand j).toNat).isUsed = true) ∧
        ((arr (drawnAt diff P rand k).toNat).isUsed = false ∨ k = 99)) ∧
      ((∃ j, j < 100 ∧ (arr (drawnAt diff P rand j).toNat).isUsed = false) →
        ∃ i s, randomPhraseIndex diff arr P rand = some (i, s) ∧
          (arr i.toNat).isUsed = false) ∧
      ((∀ j, j < 100 → (arr (drawnAt diff P rand j).toNat).isUsed = true) →
        ∃ s, randomPhraseIndex diff arr P rand = some (drawnAt diff P rand 99, s)) := by
  obtain ⟨k, k1, k2, k3, k4⟩ :=
    randomPhraseIndex_spec diff P arr rand (by omega) (bandWidth_pos diff P hP) hd
  refine ⟨⟨k, decide (k = 99), k1, k2, k3, k4⟩, ?_, ?_⟩
  · rintro ⟨j, hj, hju⟩
    refine ⟨drawnAt diff P rand k, decide (k = 99), k2, ?_⟩
    rcases k4 with h | h
    · exact h
    · by_cases hjk : j = k
      · subst hjk; exact hju
      · have := k3 j (by omega)
        rw [hju] at this
        exact absurd this (by decide)
  · intro hall
    rcases k4 with h | h
    · have := hall k k1
      rw [h] at this
      exact absurd this (by decide)
    · subst h
      exact ⟨decide (99 = 99), k2⟩

theorem randomPhraseIndex_first_unused_witness :
    randomPhraseIndex 0 sampleUsed 6 (fun k => k) = some (1, false) ∧
      ∃ i s, randomPhraseIndex 0 sampleUsed 6 (fun k => k) = some (i, s) ∧
        (sampleUsed i.toNat).isUsed = false :=
  ⟨by decide,
    (randomPhraseIndex_first_unused 0 6 sampleUsed (fun k => k) (by decide)
      (by decide)).2.1 ⟨1, by decide, by decide⟩⟩

theorem mem_drawnIndices (diff P : Int) (R : Nat) (i : Int) :
    i ∈ drawnIndices diff P R ↔
      ∃ r, r ≤ R ∧ drawIndex diff P (P.tmod 3) r (-1) = some i := by
  unfold drawnIndices
  simp only [Finset.mem_biUnion, Finset.mem_range, Option.mem_toFinset, Option.mem_def]
  constructor
  · rintro ⟨r, hr, h⟩; exact ⟨r, by omega, h⟩
  · rintro ⟨r, hr, h⟩; exact ⟨r, by omega, h⟩

theorem exists_draw (m lo i : Int) (R : Nat) (hR : m ≤ R + 1)
    (h1 : lo ≤ i) (h2 : i < lo + m) : ∃ r : Nat, r ≤ R ∧ (r : Int) % m + lo = i := by
  refine ⟨(i - lo).toNat, ?_, ?_⟩
  · have : ((i - lo).toNat : Int) = i - lo := Int.toNat_of_nonneg (by omega)
    omega
  · rw [Int.toNat_of_nonneg (by omega), Int.emod_eq_of_lt (by omega) (by omega)]
    omega

theorem drawnIndices_zero (P : Int) (R : Nat) (hP : 3 ≤ P) (hR : P ≤ R + 1) :
    drawnIndices 0 P R = Finset.Ico 0 (P / 3) := by
  ext i
  rw [mem_drawnIndices, Finset.mem_Ico]
  constructor
  · rintro ⟨r, _, hr⟩
    obtain ⟨i2, e, b, _, _⟩ :=
      drawIndex_band 0 P r (-1) (by omega) (bandWidth_pos 0 P hP) (Or.inl rfl)
    rw [hr, Option.some.injEq] at e
    rw [e]
    exact b rfl
  · rintro ⟨h1, h2⟩
    obtain ⟨r, hr, e⟩ := exists_draw (P / 3) 0 i R (by omega) h1 (by omega)
    refine ⟨r, hr, ?_⟩
    rw [drawIndex_eq 0 P r (-1) (by omega), if_pos rfl, if_neg (by omega)]
    rw [← e]
    simp

theorem drawnIndices_one (P : Int) (R : Nat) (hP : 3 ≤ P) (hR : P ≤ R + 1) :
    drawnIndices 1 P R = Finset.Ico (P / 3) (P / 3 * 2) := by
  ext i
  rw [mem_drawnIndices, Finset.mem_Ico]
  constructor
  · rintro ⟨r, _, hr⟩
    obtain ⟨i2, e, _, b, _⟩ :=
      drawIndex_band 1 P r (-1) (by omega) (bandWidth_pos 1 P hP) (Or.inr (Or.inl rfl))
    rw [hr, Option.some.injEq] at e
    rw [e]
    exact b rfl
  · rintro ⟨h1, h2⟩
    obtain ⟨r, hr, e⟩ :=
      exists_draw (P / 3) (P / 3) i R (by omega) h1 (by omega)
    refine ⟨r, hr, ?_⟩
    rw [drawIndex_eq 1 P r (-1) (by omega), if_neg (by decide), if_pos rfl,
      if_neg (by omega), e]

theorem drawnIndices_two (P : Int) (R : Nat) (hP : 3 ≤ P) (hR : P ≤ R + 1) :
    drawnIndices 2 P R = Finset.Ico (P / 3 * 2) P := by
  ext i
  rw [mem_drawnIndices, Finset.mem_Ico]
  constructor
  · rintro ⟨r, _, hr⟩
    obtain ⟨i2, e, _, _, b⟩ :=
      drawIndex_band 2 P r (-1) (by omega) (bandWidth_pos 2 P hP) (Or.inr (Or.inr rfl))
    rw [hr, Option.some.injEq] at e
    rw [e]
    exact b rfl
  · rintro ⟨h1, h2⟩
    obtain ⟨r, hr, e⟩ :=
      exists_draw (P / 3 + P % 3) (P / 3 * 2) i R (by omega) h1 (by omega)
    refine ⟨r, hr, ?_⟩
    rw [drawIndex_eq 2 P r (-1) (by omega), if_neg (by decide), if_neg (by decide),
      if_pos rfl, if_neg (by omega), e]

/-- C13: for `P >= 3` phrases, with `rand()` ranging over `0, ..., RAND_MAX`
where `P <= RAND_MAX + 1`, the sets of indices that `randomPhraseIndex` can
draw for the tiers 0, 1 and 2 are the intervals `[0, P/3)`, `[P/3, (P/3)*2)`
and `[(P/3)*2, P)`: they are pairwise disjoint, their union is
`{0, ..., P-1}`, and their sizes are `P/3`, `P/3` and `P/3 + P mod 3`. -/
theorem drawnIndices_partition (P : Int) (RAND_MAX : Nat) (hP : 3 ≤ P)
    (hR : P ≤ RAND_MAX + 1) :
    drawnIndices 0 P RAND_MAX = Finset.Ico 0 (P / 3) ∧
      drawnIndices 1 P RAND_MAX = Finset.Ico (P / 3) (P / 3 * 2) ∧
      drawnIndices 2 P RAND_MAX = Finset.Ico (P / 3 * 2) P ∧
      Disjoint (drawnIndices 0 P RAND_MAX) (drawnIndices 1 P RAND_MAX) ∧
      Disjoint (drawnIndices 0 P RAND_MAX) (drawnIndices 2 P RAND_MAX) ∧
      Disjoint (drawnIndices 1 P RAND_MAX) (drawnIndices 2 P RAND_MAX) ∧
      drawnIndices 0 P RAND_MAX ∪ drawnIndices 1 P RAND_MAX ∪ drawnIndices 2 P RAND_MAX =
        Finset.Ico 0 P ∧
      ((drawnIndices 0 P RAND_MAX).card : Int) = P / 3 ∧
      ((drawnIndices 1 P RAND_MAX).card : Int) = P / 3 ∧
      ((drawnIndices 2 P RAND_MAX).card : Int) = P / 3 + P % 3 := by
  rw [drawnIndices_zero P RAND_MAX hP hR, drawnIndices_one P RAND_MAX hP hR,
    drawnIndices_two P RAND_MAX hP hR]
  refine ⟨rfl, rfl, rfl, ?_, ?_, ?_, ?_, ?_, ?_, ?_⟩
  · rw [Finset.disjoint_left]
    intro i h1 h2
    rw [Finset.mem_Ico] at h1 h2
    omega
  · rw [Finset.disjoint_left]
    intro i h1 h2
    rw [Finset.mem_Ico] at h1 h2
    omega
  · rw [Finset.disjoint_left]
    intro i h1 h2
    rw [Finset.mem_Ico] at h1 h2
    omega
  · ext i
    simp only [Finset.mem_union, Finset.mem_Ico]
    omega
  · rw [Int.card_Ico, Int.toNat_of_nonneg (by omega)]
    omega
  · rw [Int.card_Ico, Int.toNat_of_nonneg (by omega)]
    omega
  · rw [Int.card_Ico, Int.toNat_of_nonneg (by omega)]
    omega

theorem drawnIndices_partition_witness :
    drawnIndices 2 7 9 = Finset.Ico 4 7 ∧
      ((drawnIndices 2 7 32767).card : Int) = 7 / 3 + 7 % 3 ∧
      Disjoint (drawnIndices 0 7 32767) (drawnIndices 1 7 32767) :=
  ⟨by decide,
    (drawnIndices_partition 7 32767 (by decide) (by decide)).2.2.2.2.2.2.2.2.2,
    (drawnIndices_partition 7 32767 (by decide) (by decide)).2.2.2.1⟩

/-- C18 as stated fails: with one phrase (`P = 1 >= 1`) the modulus of tier 0
is `1 / 3 = 0` and `randomPhraseIndex` divides by zero. -/
theorem randomPhraseIndex_one_phrase_counterexample :
    (1 : Int) ≥ 1 ∧ bandWidth 0 1 = 0 ∧
      randomPhraseIndex 0 sampleArray 1 (fun _ => 0) = none := by
  decide

/-- C18 (amended): for a tier 0, 1 or 2 and `P >= 0` phrases,
`randomPhraseIndex` divides by zero exactly when the modulus, the width of the
band, is zero; it is zero for every tier when `P = 0`, and for the tiers 0 and
1 when `P` is 1 or 2; under the precondition `P >= 3` it is positive for every
tier; and whenever it is positive the draw is defined and the returned index
is a valid index below `P`. -/
theorem randomPhraseIndex_modulus (diff P : Int) (hP : 0 ≤ P)
    (hd : diff = 0 ∨ diff = 1 ∨ diff = 2) :
    (P = 0 → bandWidth diff P = 0) ∧
      (bandWidth diff P = 0 ↔ (P = 0 ∨ ((diff = 0 ∨ diff = 1) ∧ P < 3))) ∧
      (3 ≤ P → 0 < bandWidth diff P) ∧
      (bandWidth diff P = 0 →
        ∀ (arr : Nat → Phrase) (rand : Nat → Nat),
          randomPhraseIndex diff arr P rand = none) ∧
      (0 < bandWidth diff P →
        ∀ (arr : Nat → Phrase) (rand : Nat → Nat),
          ∃ i s, randomPhraseIndex diff arr P rand = some (i, s) ∧ 0 ≤ i ∧ i < P) := by
  have hw := bandWidth_eq diff P hP
  refine ⟨?_, ?_, ?_, ?_, ?_⟩
  · intro h0
    rw [hw]
    split_ifs <;> omega
  · rw [hw]
    rcases hd with h | h | h <;> subst h <;> simp <;> omega
  · intro h3
    exact bandWidth_pos diff P h3
  · intro h0 arr rand
    exact randomPhraseIndex_none diff P arr rand hP h0 hd
  · intro hpos arr rand
    obtain ⟨k, _, hk, _, _⟩ := randomPhraseIndex_spec diff P arr rand hP hpos hd
    obtain ⟨_, b1, b2, _⟩ := drawnAt_spec diff P rand k (-1) hP hpos hd
    exact ⟨drawnAt diff P rand k, decide (k = 99), hk, b1, b2⟩

theorem randomPhraseIndex_modulus_witness :
    randomPhraseIndex 2 sampleArray 2 (fun k => k + 1) = some (1, false) ∧
      (0 : Int) < bandWidth 2 2 ∧
      ∃ i s, randomPhraseIndex 2 sampleArray 2 (fun k => k + 1) = some (i, s) ∧
        0 ≤ i ∧ i < 2 :=
  ⟨by decide, by decide,
    (randomPhraseIndex_modulus 2 2 (by decide) (by decide)).2.2.2.2 (by decide)
      sampleArray (fun k => k + 1)⟩

/-- C20: with six phrases of which only the first is used, tier 0 (band
`{0, 1}`) and a random source whose first 99 values select phrase 0 and whose
100th selects phrase 1, `randomPhraseIndex` returns the index 1 of an unused
phrase and still raises "Every phrase has been used.": the flag tests
`counter == 100`, not the used flag of the phrase drawn last. -/
theorem randomPhraseIndex_signal_on_unused :
    randomPhraseIndex 0 sampleUsed 6 sampleRand = some (1, true) ∧
      (sampleUsed 1).isUsed = false ∧
      drawnAt 0 6 sampleRand 99 = 1 ∧
      (∀ j, j < 99 → drawnAt 0 6 sampleRand j = 0) ∧
      (sampleUsed 0).isUsed = true := by
  decide

/-! ## Layout of the masked phrase and victory -/

theorem length_intersperse (sep : Int) :
    ∀ l : List Int, (l.intersperse sep).length = 2 * l.length - 1 := by
  intro l
  induction l with
  | nil => rfl
  | cons x xs ih =>
    cases xs with
    | nil => rfl
    | cons y ys =>
      simp only [List.intersperse_cons₂, List.length_cons] at ih ⊢
      omega

theorem intersperse_odd (sep : Int) :
    ∀ (l : List Int) (i : Nat), 2 * i + 1 < (l.intersperse sep).length →
      (l.intersperse sep)[2 * i + 1]? = some sep := by
  intro l
  induction l with
  | nil => intro i h; simp at h
  | cons x xs ih =>
    intro i h
    cases xs with
    | nil => simp at h
    | cons y ys =>
      cases i with
      | zero => simp
      | succ i =>
        have h2 : 2 * i + 1 < ((y :: ys).intersperse sep).length := by
          simp only [List.intersperse_cons₂, List.length_cons] at h
          omega
        have := ih i h2
        simp only [List.intersperse_cons₂, Nat.mul_succ, List.getElem?_cons_succ]
        exact this

theorem mem_intersperse (sep x : Int) :
    ∀ l : List Int, x ∈ l.intersperse sep → x = sep ∨ x ∈ l := by
  intro l
  induction l with
  | nil => intro h; simp at h
  | cons a as ih =>
    intro h
    cases as with
    | nil => right; simpa using h
    | cons b bs =>
      simp only [List.intersperse_cons₂, List.mem_cons] at h
      rcases h with h | h | h
      · right; rw [h]; exact List.mem_cons_self _ _
      · left; exact h
      · rcases ih (by simpa using h) with h2 | h2
        · left; exact h2
        · right; exact List.mem_cons_of_mem _ h2

theorem renderChar_cases (G : List Int) (cur : Int) :
    renderChar G cur = cur ∨ renderChar G cur = 95 := by
  rw [renderChar_eq]
  split_ifs
  · exact Or.inl rfl
  · exact Or.inr rfl

/-- C15: for a phrase of `n` characters `phraseWithBlanks` returns the `n`
renderings joined by one space between consecutive positions and none after
the last: the result is empty when `n = 0` and has length `2n - 1` when
`n >= 1`, every odd index holds the space, and every even index `2i` holds
either `phrase[i]` or the underscore. -/
theorem phraseWithBlanks_layout (phrase guesses : List Int) :
    (phrase.length = 0 → phraseWithBlanks phrase guesses = []) ∧
      (1 ≤ phrase.length →
        (phraseWithBlanks phrase guesses).length = 2 * phrase.length - 1) ∧
      (∀ i, 2 * i + 1 < (phraseWithBlanks phrase guesses).length →
        (phraseWithBlanks phrase guesses)[2 * i + 1]? = some 32) ∧
      (∀ i c, phrase[i]? = some c →
        (phraseWithBlanks phrase guesses)[2 * i]? = some c ∨
          (phraseWithBlanks phrase guesses)[2 * i]? = some 95) := by
  rw [phraseWithBlanks_eq]
  refine ⟨?_, ?_, ?_, ?_⟩
  · intro h
    rw [List.length_eq_zero] at h
    subst h
    rfl
  · intro _
    rw [length_intersperse, List.length_map]
  · intro i h
    exact intersperse_odd 32 _ i h
  · intro i c hc
    rw [intersperse_even, List.getElem?_map, hc, Option.map_some']
    rcases renderChar_cases guesses c with h | h
    · left; rw [h]
    · right; rw [h]

theorem phraseWithBlanks_layout_witness :
    phraseWithBlanks (str "cat") (str "c") = str "c _ _" ∧
      (phraseWithBlanks (str "cat") (str "c")).length = 2 * (str "cat").length - 1 ∧
      (phraseWithBlanks (str "cat") (str "c"))[2 * 1 + 1]? = some 32 :=
  ⟨by decide,
    (phraseWithBlanks_layout (str "cat") (str "c")).2.1 (by decide),
    (phraseWithBlanks_layout (str "cat") (str "c")).2.2.1 1 (by decide)⟩

theorem checkVictory_eq_true_iff (s : List Int) :
    checkVictory s = true ↔ (95 : Int) ∉ s := by
  induction s with
  | nil => simp [checkVictory]
  | cons c rest ih =>
    simp only [checkVictory, List.mem_cons, not_or]
    by_cases h : c = 95
    · simp [h]
    · rw [if_neg h, ih]
      constructor
      · intro h2; exact ⟨fun e => h e.symm, h2⟩
      · intro h2; exact h2.2

/-- C16: `checkVictory(s)` is true if and only if `s` contains no underscore;
`checkVictory("c a t")` is true and `checkVictory("c _ t")` is false. -/
theorem checkVictory_iff_no_underscore (s : List Int) :
    (checkVictory s = true ↔ (95 : Int) ∉ s) ∧
      checkVictory (str "c a t") = true ∧
      checkVictory (str "c _ t") = false :=
  ⟨checkVictory_eq_true_iff s, by decide, by decide⟩

/-- When every character of the phrase is a letter or a character of the shown
ranges other than the underscore, guessing the lowercase form of every letter
of the phrase reveals it. -/
theorem checkVictory_of_letters_guessed (phrase guesses : List Int)
    (hph : ∀ c ∈ phrase, isLetter c ∨ (inShownRange c ∧ c ≠ 95))
    (hall : ∀ c ∈ phrase, isLetter c → toLower c ∈ guesses) :
    checkVictory (phraseWithBlanks phrase guesses) = true := by
  rw [checkVictory_eq_true_iff, phraseWithBlanks_eq]
  intro hmem
  rcases mem_intersperse 32 95 _ hmem with h | h
  · exact absurd h (by decide)
  · rw [List.mem_map] at h
    obtain ⟨c, hc, hr⟩ := h
    rw [renderChar_eq] at hr
    rcases hph c hc with hl | ⟨hs, hne⟩
    · have hm : ∃ g ∈ guesses, matchesGuess c g := by
        refine ⟨toLower c, hall c hc hl, ?_⟩
        unfold matchesGuess toLower
        split_ifs <;> omega
      rw [if_pos (Or.inr hm)] at hr
      unfold isLetter at hl
      omega
    · rw [if_pos (Or.inl hs)] at hr
      exact hne hr

/-- C17: for the phrase `a_b` with the correct guesses `ab`, which hold the
lowercase form of every letter of the phrase, the masked phrase is `a _ b` and
`checkVictory` is false; the session is still running after the two guesses and
ends as lost after five wrong ones.  The same holds of the phrase `a\x7bb`,
whose punctuation character the range test leaves out. -/
theorem checkVictory_false_all_letters_guessed :
    (∀ c ∈ str "a_b", isLetter c → toLower c ∈ str "ab") ∧
      phraseWithBlanks (str "a_b") (str "ab") = str "a _ b" ∧
      checkVictory (phraseWithBlanks (str "a_b") (str "ab")) = false ∧
      runGameLoop (str "a_b") (str "ab") emptyGuesses = none ∧
      runGameLoop (str "a_b") (str "abvwxyz") emptyGuesses =
        some ⟨⟨2, str "ab"⟩, ⟨5, str "vwxyz"⟩, ⟨7, str "abvwxyz"⟩⟩ ∧
      displayResult 5 = Verdict.youreDead ∧
      (∀ c ∈ str "a\x7bb", isLetter c → toLower c ∈ str "ab") ∧
      checkVictory (phraseWithBlanks (str "a\x7bb") (str "ab")) = false := by
  decide

/-- C19: `phraseWithBlanks(P, P)` reveals the whole phrase: it is `P` with one
space between consecutive characters, so that for every position `i` the
character rendered for it (at index `2 * i`) is `P[i]`. -/
theorem phraseWithBlanks_self (P : List Int) :
    phraseWithBlanks P P = P.intersperse 32 ∧
      ∀ i, (phraseWithBlanks P P)[2 * i]? = P[i]? := by
  have hmap : P.map (renderChar P) = P := by
    have : ∀ c ∈ P, renderChar P c = id c := by
      intro c hc
      rw [renderChar_eq, if_pos (Or.inr ⟨c, hc, Or.inl rfl⟩)]
      rfl
    rw [List.map_congr_left this, List.map_id]
  have heq : phraseWithBlanks P P = P.intersperse 32 := by
    rw [phraseWithBlanks_eq, hmap]
  refine ⟨heq, ?_⟩
  intro i
  rw [heq, intersperse_even]

/-! ## An end-to-end session -/

/-- C11: a session on the phrase "cat" fed the guesses `c`, `x`, `a`, `t`
classifies them as correct, wrong, correct, correct; the loop is still running
after three guesses and stops with the fourth, whatever input follows, in the
Won state with a wrong-guess count of 1 and the masked phrase "c a t". -/
theorem runGame_cat_session :
    checkGuess 99 (str "cat") emptyGuesses = recordCorrect 99 emptyGuesses ∧
      checkGuess 120 (str "cat") ⟨⟨1, str "c"⟩, ⟨0, []⟩, ⟨1, str "c"⟩⟩ =
        recordWrong 120 ⟨⟨1, str "c"⟩, ⟨0, []⟩, ⟨1, str "c"⟩⟩ ∧
      checkGuess 97 (str "cat") ⟨⟨1, str "c"⟩, ⟨1, str "x"⟩, ⟨2, str "cx"⟩⟩ =
        recordCorrect 97 ⟨⟨1, str "c"⟩, ⟨1, str "x"⟩, ⟨2, str "cx"⟩⟩ ∧
      checkGuess 116 (str "cat") ⟨⟨2, str "ca"⟩, ⟨1, str "x"⟩, ⟨3, str "cxa"⟩⟩ =
        recordCorrect 116 ⟨⟨2, str "ca"⟩, ⟨1, str "x"⟩, ⟨3, str "cxa"⟩⟩ ∧
      runGameStates (str "cat") (str "cxat") emptyGuesses =
        [emptyGuesses,
         ⟨⟨1, str "c"⟩, ⟨0, []⟩, ⟨1, str "c"⟩⟩,
         ⟨⟨1, str "c"⟩, ⟨1, str "x"⟩, ⟨2, str "cx"⟩⟩,
         ⟨⟨2, str "ca"⟩, ⟨1, str "x"⟩, ⟨3, str "cxa"⟩⟩,
         ⟨⟨3, str "cat"⟩, ⟨1, str "x"⟩, ⟨4, str "cxat"⟩⟩] ∧
      runGameLoop (str "cat") (str "cxa") emptyGuesses = none ∧
      (∀ more : List Int, runGameLoop (str "cat") (str "cxat" ++ more) emptyGuesses =
        some ⟨⟨3, str "cat"⟩, ⟨1, str "x"⟩, ⟨4, str "cxat"⟩⟩) ∧
      displayResult 1 = Verdict.youWin ∧
      checkVictory (phraseWithBlanks (str "cat") (str "cat")) = true ∧
      phraseWithBlanks (str "cat") (str "cat") = str "c a t" := by
  refine ⟨by decide, by decide, by decide, by decide, by decide, by decide, ?_,
    by decide, by decide, by decide⟩
  intro more
  rfl

/-! ## The sorter only reorders; ties -/

theorem swapPhrases_eq_comp (i s : Nat) (arr : Nat → Phrase) :
    swapPhrases i s arr = arr ∘ (Equiv.swap i s) := by
  funext k
  rw [swapPhrases_apply, Function.comp_apply, Equiv.swap_apply_def]
  by_cases h1 : k = s
  · subst h1
    by_cases h2 : k = i
    · subst h2; simp
    · simp [h2]
  · by_cases h2 : k = i
    · subst h2; simp [h1]
    · simp [h1, h2]

theorem sortInner_lt (arr : Nat → Phrase) (n index : Nat) (hidx : index < n) :
    sortInner arr (n - (index + 1)) (index + 1) index < n := by
  obtain ⟨_, _, h3⟩ := sortInner_spec arr (n - (index + 1)) (index + 1) index
  rcases h3 with h3 | h3
  · omega
  · omega

/-- The outer loop of `sortPhrases` composes the array with a permutation of
the indices that moves no index from `n` on. -/
theorem sortOuter_eq_comp (n : Nat) :
    ∀ (k index : Nat) (arr : Nat → Phrase), index + k = n →
      ∃ σ : Equiv.Perm Nat, (∀ j, n ≤ j → σ j = j) ∧ sortOuter n k index arr = arr ∘ σ := by
  intro k
  induction k with
  | zero =>
    intro index arr _
    exact ⟨Equiv.refl Nat, fun _ _ => rfl, rfl⟩
  | succ k ih =>
    intro index arr hk
    have hs := sortInner_lt arr n index (by omega)
    simp only [sortOuter]
    generalize sortInner arr (n - (index + 1)) (index + 1) index = s at hs
    obtain ⟨σ, hfix, heq⟩ := ih (index + 1) (swapPhrases index s arr) (by omega)
    refine ⟨σ.trans (Equiv.swap index s), ?_, ?_⟩
    · intro j hj
      rw [Equiv.trans_apply, hfix j hj]
      exact Equiv.swap_apply_of_ne_of_ne (by omega) (by omega)
    · rw [heq, swapPhrases_eq_comp]
      funext j
      simp only [Function.comp_apply, Equiv.trans_apply]

theorem map_range_perm (n : Nat) (σ : Equiv.Perm Nat) (hfix : ∀ j, n ≤ j → σ j = j) :
    ((List.range n).map σ).Perm (List.range n) := by
  rw [List.perm_ext_iff_of_nodup ((List.nodup_range n).map σ.injective) (List.nodup_range n)]
  intro a
  simp only [List.mem_map, List.mem_range]
  constructor
  · rintro ⟨j, hj, rfl⟩
    by_contra hge
    have h1 : σ (σ j) = σ j := hfix (σ j) (by omega)
    have h2 : σ j = j := σ.injective h1
    omega
  · intro ha
    refine ⟨σ.symm a, ?_, by simp⟩
    by_contra hge
    have h1 : σ (σ.symm a) = σ.symm a := hfix (σ.symm a) (by omega)
    rw [Equiv.apply_symm_apply] at h1
    omega

/-- C22: `sortPhrases` only reorders: the first `n` entries after sorting are
a permutation of the first `n` entries before it, as whole `Phrase` records
(text, guessesRequired and isUsed together), and every entry at an index
`>= n` is unchanged. -/
theorem sortPhrases_perm (arr : Nat → Phrase) (n : Int) :
    ((List.range n.toNat).map (sortPhrases arr n)).Perm ((List.range n.toNat).map arr) ∧
      ∀ k : Nat, n ≤ (k : Int) → sortPhrases arr n k = arr k := by
  obtain ⟨σ, hfix, heq⟩ := sortOuter_eq_comp n.toNat n.toNat 0 arr (by omega)
  have hsort : sortPhrases arr n = arr ∘ σ := heq
  refine ⟨?_, ?_⟩
  · rw [hsort, ← List.map_map]
    exact (map_range_perm n.toNat σ hfix).map arr
  · intro k hk
    rw [hsort, Function.comp_apply, hfix k (by omega)]

theorem sortPhrases_perm_witness :
    (List.range 3).map (sortPhrases sampleArray 3) =
        [sampleArray 1, sampleArray 2, sampleArray 0] ∧
      sortPhrases sampleArray 3 5 = sampleArray 5 :=
  ⟨by decide, (sortPhrases_perm sampleArray 3).2 5 (by decide)⟩

/-- C21 as stated fails: on three phrases with the scores 2, 2, 1
`sortPhrases` exchanges the first with the third, so that the two phrases of
score 2 come out in the opposite order. -/
theorem sortPhrases_not_stable :
    sortPhrases tieArray 3 0 = tieArray 2 ∧
      sortPhrases tieArray 3 1 = tieArray 1 ∧
      sortPhrases tieArray 3 2 = tieArray 0 ∧
      (tieArray 0).guessesRequired = (tieArray 1).guessesRequired ∧
      ¬ keepsOrderOfEquals tieArray (sortPhrases tieArray 3) 3 := by
  decide

theorem sortInner_eq_self (arr : Nat → Phrase) :
    ∀ (k iter s : Nat),
      (∀ j, iter ≤ j → j < iter + k →
        (arr s).guessesRequired ≤ (arr j).guessesRequired) →
      sortInner arr k iter s = s := by
  intro k
  induction k with
  | zero => intro iter s _; rfl
  | succ k ih =>
    intro iter s h
    simp only [sortInner]
    have h0 := h iter (le_refl _) (by omega)
    rw [if_neg (by omega)]
    exact ih (iter + 1) s (fun j hj1 hj2 => h j (by omega) (by omega))

theorem swapPhrases_self (i : Nat) (arr : Nat → Phrase) : swapPhrases i i arr = arr := by
  funext k
  rw [swapPhrases_apply]
  by_cases h : k = i
  · subst h; simp
  · simp [h]

theorem sortOuter_of_sorted (n : Nat) (arr : Nat → Phrase)
    (h : ∀ i j, i < j → j < n → (arr i).guessesRequired ≤ (arr j).guessesRequired) :
    ∀ (k index : Nat), index + k = n → sortOuter n k index arr = arr := by
  intro k
  induction k with
  | zero => intro index _; rfl
  | succ k ih =>
    intro index hk
    simp only [sortOuter]
    rw [sortInner_eq_self arr _ _ _ (fun j hj1 hj2 => h index j (by omega) (by omega)),
      swapPhrases_self]
    exact ih (index + 1) (by omega)

/-- C21 (amended): `sortPhrases` is not stable in general; when the first `n`
entries are already in ascending order of `guessesRequired` it leaves the
array unchanged, so that any two phrases with equal `guessesRequired` appear
after sorting in the same relative order as before. -/
theorem sortPhrases_of_sorted (arr : Nat → Phrase) (n : Int)
    (h : ∀ i j : Nat, i < j → (j : Int) < n →
      (arr i).guessesRequired ≤ (arr j).guessesRequired) :
    sortPhrases arr n = arr ∧ keepsOrderOfEquals arr (sortPhrases arr n) n.toNat := by
  have heq : sortPhrases arr n = arr :=
    sortOuter_of_sorted n.toNat arr (fun i j hij hj => h i j hij (by omega)) n.toNat 0
      (by omega)
  refine ⟨heq, ?_⟩
  rw [heq]
  intro j hj i hij _
  exact ⟨j, hj, i, hij, rfl, rfl⟩

theorem sortPhrases_of_sorted_witness :
    sortPhrases sortedTieArray 3 = sortedTieArray ∧
      keepsOrderOfEquals sortedTieArray (sortPhrases sortedTieArray 3) (3 : Int).toNat :=
  sortPhrases_of_sorted sortedTieArray 3 (by
    intro i j hij hj
    have hj3 : j < 3 := by omega
    interval_cases j <;> interval_cases i <;> decide)

end Hangman
